import Mathlib

/-!
# Verification of the peek front-end pipeline

A shallow embedding, in Lean, of the lexing and completion pipeline of the
`peek` interactive shell (files `peek/lexers.py` and `peek/completer.py`),
together with theorems settling the specification claims about it.

The embedding models:

* the pygments `RegexLexer` machinery driving `PeekLexer` and `PayloadLexer`
  (an explicit mode stack, ordered rule tables per mode, first-match wins,
  the error fallback that advances one character when no rule matches);
* every regex of the two lexers' rule tables, hand-translated to a matcher
  on `List Char` returning the length of the match;
* the completer: `get_completions`, `_complete_path`, `_complete_path_part`,
  `_complete_query_param_name`, `_complete_options`, `can_match`, and
  `load_rest_api_spec` (the filesystem abstracted as a value).

Components that `completer.py` imports from this repository but that are not
present in the source tree (`UrlPathLexer`, the token-kind aliases
`HttpMethod`/`FuncName`/..., and `process_tokens`) are modelled from the
specification; their doc comments say so explicitly.

All recursions over input text use an explicit fuel argument equal to the
input length, so every definition is executable by kernel reduction; the
partition theorems prove that this fuel always suffices (each lexer step
consumes at least one character), which is exactly the termination argument
of the specification.
-/

/-- Token kinds.  One flat enumeration covering the pygments token types
emitted by `PeekLexer`/`PayloadLexer` in `peek/lexers.py` together with the
kinds that `peek/completer.py` imports from `peek.lexers`
(`HttpMethod, FuncName, BlankLine, KeyName, Assign, PathPart, Slash,
QuestionMark, Ampersand, ParamName`).  Those aliases are not present in the
source tree; modelled from the spec's TokenKind enumeration (§3), with
`httpMethod` the kind of the `Keyword` emitted for GET/POST/PUT/DELETE.
Kind comparison in the completer is plain equality (pygments token types
compare structurally), which the constructors model. -/
inductive TType where
  | whitespace | comment | text | error
  | httpMethod | literal | nameBuiltin | name | percent
  | curlyLeft | curlyRight | bracketLeft | bracketRight | comma | colon
  | stringSymbol | stringDouble | stringSingle | stringEscape
  | numberFloat | numberOct | numberBin | numberHex | numberIntegerLong | numberInteger
  | funcName | blankLine | keyName | assign
  | pathPart | slash | questionMark | ampersand | paramName | equals | paramValue
deriving DecidableEq, Repr

/-- A lexed token: absolute start offset into the input, kind, and the exact
matched text (as a character list). -/
structure Tok where
  index : Nat
  ttype : TType
  value : List Char
deriving DecidableEq, Repr

/-! ## Character classes (Python regex classes, ASCII range) -/

/-- Python `\s` (ASCII portion). -/
def pySpace (c : Char) : Bool :=
  c = ' ' || c = '\t' || c = '\n' || c = '\r' || c = Char.ofNat 11 || c = Char.ofNat 12

/-- Python `\w` (ASCII portion), used for `\b` boundaries. -/
def isWordChar (c : Char) : Bool := c.isAlphanum || c = '_'

def isOctDigit (c : Char) : Bool := '0' ≤ c && c ≤ '7'

def isBinDigit (c : Char) : Bool := c = '0' || c = '1'

def isHexDigitCh (c : Char) : Bool :=
  c.isDigit || ('a' ≤ c && c ≤ 'f') || ('A' ≤ c && c ≤ 'F')

/-! ## Regex matchers

Each matcher takes the remaining input and returns `some n` when the regex of
the corresponding lexer rule matches a prefix of length `n` (Python
`rex.match` semantics: leftmost alternation, greedy quantifiers), `none`
otherwise. -/

/-- `//.*` — a line comment: to the end of the line (no DOTALL). -/
def matchComment : List Char → Option Nat
  | a :: b :: rest =>
    if a = '/' ∧ b = '/' then some (2 + (rest.takeWhile (fun c => c ≠ '\n')).length)
    else none
  | _ => none

/-- `\s+` -/
def matchWs (cs : List Char) : Option Nat :=
  let n := (cs.takeWhile pySpace).length
  if n = 0 then none else some n

/-- `\S+` -/
def matchNonWs (cs : List Char) : Option Nat :=
  let n := (cs.takeWhile (fun c => ¬ pySpace c)).length
  if n = 0 then none else some n

/-- Single literal character (rules such as `{`, `}`, `[`, `]`, `:`, `,`,
`"`, `'`). -/
def matchLit (a : Char) : List Char → Option Nat
  | c :: _ => if c = a then some 1 else none
  | [] => none

/-- Case-insensitive comparison of a pattern word against an input prefix. -/
def ciStarts : List Char → List Char → Bool
  | [], _ => true
  | _ :: _, [] => false
  | p :: ps, c :: cs => (p.toLower = c.toLower) && ciStarts ps cs

/-- One alternative of a pygments `words(...)` rule with `suffix=r'\b'` and
`re.IGNORECASE`: the word, case-insensitively, followed by a non-word
character or end of input. -/
def matchWordCI (w : List Char) (cs : List Char) : Option Nat :=
  if ciStarts w cs then
    match (cs.drop w.length).head? with
    | some c => if isWordChar c then none else some w.length
    | none => some w.length
  else none

/-- `words((w1, w2, ...), suffix=r'\b')` under IGNORECASE: alternatives tried
left to right. -/
def matchWordsCI : List (List Char) → List Char → Option Nat
  | [], _ => none
  | w :: ws, cs =>
    match matchWordCI w cs with
    | some n => some n
    | none => matchWordsCI ws cs

/-- Optional trailing `j` of the numeric rules (IGNORECASE: also `J`):
returns the end position after consuming it if present. -/
def matchJ (cs : List Char) (base : Nat) : Nat :=
  match (cs.drop base).head? with
  | some c => if c = 'j' || c = 'J' then base + 1 else base
  | none => base

/-- Optional exponent `([eE][+-]?[0-9]+)?` starting at `base`; returns the
end position (unchanged when the group does not match). -/
def matchExpo (cs : List Char) (base : Nat) : Nat :=
  match (cs.drop base).head? with
  | some c =>
    if c = 'e' || c = 'E' then
      let s : Nat :=
        match (cs.drop (base + 1)).head? with
        | some c' => if c' = '+' || c' = '-' then 1 else 0
        | none => 0
      let d := ((cs.drop (base + 1 + s)).takeWhile Char.isDigit).length
      if d = 0 then base else base + 1 + s + d
    else base
  | none => base

/-- `(\d+\.\d*|\d*\.\d+)([eE][+-]?[0-9]+)?j?` -/
def matchFloatDot (cs : List Char) : Option Nat :=
  let d1 := (cs.takeWhile Char.isDigit).length
  match (cs.drop d1).head? with
  | some c =>
    if c = '.' then
      let d2 := ((cs.drop (d1 + 1)).takeWhile Char.isDigit).length
      if d1 = 0 ∧ d2 = 0 then none
      else some (matchJ cs (matchExpo cs (d1 + 1 + d2)))
    else none
  | none => none

/-- `\d+[eE][+-]?[0-9]+j?` -/
def matchFloatExp (cs : List Char) : Option Nat :=
  let d1 := (cs.takeWhile Char.isDigit).length
  if d1 = 0 then none
  else
    match (cs.drop d1).head? with
    | some c =>
      if c = 'e' || c = 'E' then
        let s : Nat :=
          match (cs.drop (d1 + 1)).head? with
          | some c' => if c' = '+' || c' = '-' then 1 else 0
          | none => 0
        let d := ((cs.drop (d1 + 1 + s)).takeWhile Char.isDigit).length
        if d = 0 then none else some (matchJ cs (d1 + 1 + s + d))
      else none
    | none => none

/-- `0[0-7]+j?` -/
def matchOct : List Char → Option Nat
  | c :: rest =>
    if c = '0' then
      let n := (rest.takeWhile isOctDigit).length
      if n = 0 then none else some (matchJ (c :: rest) (1 + n))
    else none
  | [] => none

/-- `0[bB][01]+` -/
def matchBin : List Char → Option Nat
  | c :: b :: rest =>
    if c = '0' ∧ (b = 'b' ∨ b = 'B') then
      let n := (rest.takeWhile isBinDigit).length
      if n = 0 then none else some (2 + n)
    else none
  | _ => none

/-- `0[xX][a-fA-F0-9]+` -/
def matchHex : List Char → Option Nat
  | c :: x :: rest =>
    if c = '0' ∧ (x = 'x' ∨ x = 'X') then
      let n := (rest.takeWhile isHexDigitCh).length
      if n = 0 then none else some (2 + n)
    else none
  | _ => none

/-- `\d+L` (IGNORECASE: also `l`). -/
def matchIntLong (cs : List Char) : Option Nat :=
  let d1 := (cs.takeWhile Char.isDigit).length
  if d1 = 0 then none
  else
    match (cs.drop d1).head? with
    | some c => if c = 'L' || c = 'l' then some (d1 + 1) else none
    | none => none

/-- `\d+j?` -/
def matchInt (cs : List Char) : Option Nat :=
  let d1 := (cs.takeWhile Char.isDigit).length
  if d1 = 0 then none else some (matchJ cs d1)

/-- `\\\\|\\q|\\\n` where `q` is the quote of the enclosing string state
(the escape rule of `dqs`/`sqs`). -/
def matchStrEscape (q : Char) : List Char → Option Nat
  | a :: b :: _ =>
    if a = '\\' ∧ (b = '\\' ∨ b = q ∨ b = '\n') then some 2 else none
  | _ => none

/-- `[^\\'"%\n]+` — the bulk rule of `innerstring_rules`. -/
def innerChar (c : Char) : Bool :=
  ¬ (c = '\\' || c = '\'' || c = '"' || c = '%' || c = '\n')

def matchInner (cs : List Char) : Option Nat :=
  let n := (cs.takeWhile innerChar).length
  if n = 0 then none else some n

/-- `['"\\]` — the single-character rule of `innerstring_rules`. -/
def matchQuoteOrBack : List Char → Option Nat
  | c :: _ => if c = '\'' ∨ c = '"' ∨ c = '\\' then some 1 else none
  | [] => none

/-! ### Bounds for the matchers: every match is nonempty and within the
remaining input. -/

theorem takeWhile_length_le (p : Char → Bool) (cs : List Char) :
    (cs.takeWhile p).length ≤ cs.length :=
  (List.takeWhile_sublist p).length_le

theorem drop_head?_some_lt {cs : List Char} {k : Nat} {c : Char}
    (h : (cs.drop k).head? = some c) : k < cs.length := by
  rcases List.head?_eq_some_iff.mp h with ⟨rest, hr⟩
  have h1 : (cs.drop k).length ≥ 1 := by simp [hr]
  rw [List.length_drop] at h1
  omega

theorem matchComment_bounds {cs : List Char} {n : Nat}
    (h : matchComment cs = some n) : 1 ≤ n ∧ n ≤ cs.length := by
  match cs with
  | [] => simp [matchComment] at h
  | [a] => simp [matchComment] at h
  | a :: b :: rest =>
    simp only [matchComment] at h
    split at h
    · simp only [Option.some.injEq] at h
      subst h
      have := takeWhile_length_le (fun c => c ≠ '\n') rest
      refine ⟨by omega, ?_⟩
      simp only [List.length_cons]
      omega
    · exact absurd h (by simp)

theorem matchWs_bounds {cs : List Char} {n : Nat}
    (h : matchWs cs = some n) : 1 ≤ n ∧ n ≤ cs.length := by
  simp only [matchWs] at h
  split at h
  · exact absurd h (by simp)
  · rename_i hne
    simp only [Option.some.injEq] at h
    subst h
    exact ⟨Nat.pos_of_ne_zero hne, takeWhile_length_le _ _⟩

theorem matchNonWs_bounds {cs : List Char} {n : Nat}
    (h : matchNonWs cs = some n) : 1 ≤ n ∧ n ≤ cs.length := by
  simp only [matchNonWs] at h
  split at h
  · exact absurd h (by simp)
  · rename_i hne
    simp only [Option.some.injEq] at h
    subst h
    exact ⟨Nat.pos_of_ne_zero hne, takeWhile_length_le _ _⟩

theorem matchLit_bounds {a : Char} {cs : List Char} {n : Nat}
    (h : matchLit a cs = some n) : 1 ≤ n ∧ n ≤ cs.length := by
  match cs with
  | [] => simp [matchLit] at h
  | c :: rest =>
    simp only [matchLit] at h
    split at h
    · simp only [Option.some.injEq] at h
      subst h
      simp
    · exact absurd h (by simp)

theorem ciStarts_length_le {w cs : List Char} (h : ciStarts w cs = true) :
    w.length ≤ cs.length := by
  induction w generalizing cs with
  | nil => simp
  | cons p ps ih =>
    match cs with
    | [] => simp [ciStarts] at h
    | c :: rest =>
      simp only [ciStarts, Bool.and_eq_true] at h
      have := ih h.2
      simp only [List.length_cons]
      omega

theorem matchWordCI_bounds {w cs : List Char} {n : Nat}
    (hw : w ≠ []) (h : matchWordCI w cs = some n) : 1 ≤ n ∧ n ≤ cs.length := by
  simp only [matchWordCI] at h
  split at h
  · rename_i hci
    have hle := ciStarts_length_le hci
    have hpos : 1 ≤ w.length := List.length_pos.mpr hw
    split at h
    · split at h
      · exact absurd h (by simp)
      · simp only [Option.some.injEq] at h
        omega
    · simp only [Option.some.injEq] at h
      omega
  · exact absurd h (by simp)

theorem matchWordsCI_bounds {ws : List (List Char)} {cs : List Char} {n : Nat}
    (hw : ∀ w ∈ ws, w ≠ []) (h : matchWordsCI ws cs = some n) :
    1 ≤ n ∧ n ≤ cs.length := by
  induction ws with
  | nil => simp [matchWordsCI] at h
  | cons w ws ih =>
    simp only [matchWordsCI] at h
    split at h
    · rename_i m hm
      simp only [Option.some.injEq] at h
      subst h
      exact matchWordCI_bounds (hw w (by simp)) hm
    · exact ih (fun v hv => hw v (by simp [hv])) h

theorem matchJ_bounds {cs : List Char} {base : Nat} (hb : base ≤ cs.length) :
    base ≤ matchJ cs base ∧ matchJ cs base ≤ cs.length := by
  simp only [matchJ]
  split
  · rename_i c hc
    have := drop_head?_some_lt hc
    split <;> omega
  · omega

theorem matchExpo_bounds {cs : List Char} {base : Nat} (hb : base ≤ cs.length) :
    base ≤ matchExpo cs base ∧ matchExpo cs base ≤ cs.length := by
  simp only [matchExpo]
  split
  · rename_i c hc
    have h1 := drop_head?_some_lt hc
    split
    · set s := (match (cs.drop (base + 1)).head? with
        | some c' => if c' = '+' || c' = '-' then 1 else 0
        | none => (0 : Nat)) with hs
      have hsle : s = 0 ∨ (s = 1 ∧ base + 1 < cs.length) := by
        rw [hs]
        split
        · rename_i c' hp
          split
          · exact Or.inr ⟨rfl, drop_head?_some_lt hp⟩
          · exact Or.inl rfl
        · exact Or.inl rfl
      have hd := takeWhile_length_le Char.isDigit (cs.drop (base + 1 + s))
      rw [List.length_drop] at hd
      split
      · omega
      · rcases hsle with h | ⟨h, hlt⟩ <;> omega
    · omega
  · omega

theorem matchFloatDot_bounds {cs : List Char} {n : Nat}
    (h : matchFloatDot cs = some n) : 1 ≤ n ∧ n ≤ cs.length := by
  simp only [matchFloatDot] at h
  split at h
  · rename_i c hdot
    split at h
    · have hd1 := takeWhile_length_le Char.isDigit cs
      have hlt := drop_head?_some_lt hdot
      have hd2 := takeWhile_length_le Char.isDigit
        (cs.drop ((cs.takeWhile Char.isDigit).length + 1))
      rw [List.length_drop] at hd2
      split at h
      · exact absurd h (by simp)
      · simp only [Option.some.injEq] at h
        subst h
        have hbase : (cs.takeWhile Char.isDigit).length + 1 +
            ((cs.drop ((cs.takeWhile Char.isDigit).length + 1)).takeWhile Char.isDigit).length
            ≤ cs.length := by omega
        have he := matchExpo_bounds hbase
        have hj := matchJ_bounds he.2
        omega
    · exact absurd h (by simp)
  · exact absurd h (by simp)

theorem matchFloatExp_bounds {cs : List Char} {n : Nat}
    (h : matchFloatExp cs = some n) : 1 ≤ n ∧ n ≤ cs.length := by
  simp only [matchFloatExp] at h
  split at h
  · exact absurd h (by simp)
  · rename_i hd1
    split at h
    · rename_i c hc
      split at h
      · have hlt := drop_head?_some_lt hc
        set d1 := (cs.takeWhile Char.isDigit).length with hd1def
        set s := (match (cs.drop (d1 + 1)).head? with
          | some c' => if c' = '+' || c' = '-' then 1 else 0
          | none => (0 : Nat)) with hs
        have hsle : s = 0 ∨ (s = 1 ∧ d1 + 1 < cs.length) := by
          rw [hs]
          split
          · rename_i c' hp
            split
            · exact Or.inr ⟨rfl, drop_head?_some_lt hp⟩
            · exact Or.inl rfl
          · exact Or.inl rfl
        have hd := takeWhile_length_le Char.isDigit (cs.drop (d1 + 1 + s))
        rw [List.length_drop] at hd
        split at h
        · exact absurd h (by simp)
        · simp only [Option.some.injEq] at h
          subst h
          have hbase : d1 + 1 + s +
              ((cs.drop (d1 + 1 + s)).takeWhile Char.isDigit).length ≤ cs.length := by
            rcases hsle with h | ⟨h, hlt2⟩ <;> omega
          have hj := matchJ_bounds hbase
          omega
      · exact absurd h (by simp)
    · exact absurd h (by simp)

theorem matchOct_bounds {cs : List Char} {n : Nat}
    (h : matchOct cs = some n) : 1 ≤ n ∧ n ≤ cs.length := by
  match cs with
  | [] => simp [matchOct] at h
  | c :: rest =>
    simp only [matchOct] at h
    split at h
    · split at h
      · exact absurd h (by simp)
      · rename_i hne
        simp only [Option.some.injEq] at h
        subst h
        have ht := takeWhile_length_le isOctDigit rest
        have hj := @matchJ_bounds (c :: rest) (1 + (rest.takeWhile isOctDigit).length)
          (by simp only [List.length_cons]; omega)
        omega
    · exact absurd h (by simp)

theorem matchBin_bounds {cs : List Char} {n : Nat}
    (h : matchBin cs = some n) : 1 ≤ n ∧ n ≤ cs.length := by
  match cs with
  | [] => simp [matchBin] at h
  | [c] => simp [matchBin] at h
  | c :: b :: rest =>
    simp only [matchBin] at h
    split at h
    · split at h
      · exact absurd h (by simp)
      · simp only [Option.some.injEq] at h
        subst h
        have := takeWhile_length_le isBinDigit rest
        refine ⟨by omega, ?_⟩
        simp only [List.length_cons]
        omega
    · exact absurd h (by simp)

theorem matchHex_bounds {cs : List Char} {n : Nat}
    (h : matchHex cs = some n) : 1 ≤ n ∧ n ≤ cs.length := by
  match cs with
  | [] => simp [matchHex] at h
  | [c] => simp [matchHex] at h
  | c :: x :: rest =>
    simp only [matchHex] at h
    split at h
    · split at h
      · exact absurd h (by simp)
      · simp only [Option.some.injEq] at h
        subst h
        have := takeWhile_length_le isHexDigitCh rest
        refine ⟨by omega, ?_⟩
        simp only [List.length_cons]
        omega
    · exact absurd h (by simp)

theorem matchIntLong_bounds {cs : List Char} {n : Nat}
    (h : matchIntLong cs = some n) : 1 ≤ n ∧ n ≤ cs.length := by
  simp only [matchIntLong] at h
  split at h
  · exact absurd h (by simp)
  · split at h
    · rename_i c hc
      split at h
      · simp only [Option.some.injEq] at h
        subst h
        have hlt := drop_head?_some_lt hc
        omega
      · exact absurd h (by simp)
    · exact absurd h (by simp)

theorem matchInt_bounds {cs : List Char} {n : Nat}
    (h : matchInt cs = some n) : 1 ≤ n ∧ n ≤ cs.length := by
  simp only [matchInt] at h
  split at h
  · exact absurd h (by simp)
  · rename_i hne
    simp only [Option.some.injEq] at h
    subst h
    have ht := takeWhile_length_le Char.isDigit cs
    have hj := @matchJ_bounds cs ((cs.takeWhile Char.isDigit).length) ht
    have hpos : 1 ≤ (cs.takeWhile Char.isDigit).length := Nat.pos_of_ne_zero hne
    omega

theorem matchStrEscape_bounds {q : Char} {cs : List Char} {n : Nat}
    (h : matchStrEscape q cs = some n) : 1 ≤ n ∧ n ≤ cs.length := by
  match cs with
  | [] => simp [matchStrEscape] at h
  | [a] => simp [matchStrEscape] at h
  | a :: b :: rest =>
    simp only [matchStrEscape] at h
    split at h
    · simp only [Option.some.injEq] at h
      subst h
      refine ⟨by omega, ?_⟩
      simp only [List.length_cons]
      omega
    · exact absurd h (by simp)

theorem matchInner_bounds {cs : List Char} {n : Nat}
    (h : matchInner cs = some n) : 1 ≤ n ∧ n ≤ cs.length := by
  simp only [matchInner] at h
  split at h
  · exact absurd h (by simp)
  · rename_i hne
    simp only [Option.some.injEq] at h
    subst h
    exact ⟨Nat.pos_of_ne_zero hne, takeWhile_length_le _ _⟩

theorem matchQuoteOrBack_bounds {cs : List Char} {n : Nat}
    (h : matchQuoteOrBack cs = some n) : 1 ≤ n ∧ n ≤ cs.length := by
  match cs with
  | [] => simp [matchQuoteOrBack] at h
  | c :: rest =>
    simp only [matchQuoteOrBack] at h
    split at h
    · simp only [Option.some.injEq] at h
      subst h
      simp
    · exact absurd h (by simp)

/-! ## The pygments mode-stack machine

`RegexLexer.get_tokens_unprocessed`: a stack of state names, initially
`['root']`; at each position the top state's rules are tried in order; the
first whose regex matches consumes the match, emits its token, and applies
its state transition (`'#pop'` pops — guarded: the last stack entry is never
popped — and a tuple `('#pop', s)` pops then pushes `s`).  When no rule
matches: an unmatched `'\n'` is emitted as a `Text` token and the stack is
reset to `['root']`; any other character is emitted as a length-1 `Error`
token; either way the position advances by one. -/

/-- A pygments state transition, as used by the two lexers. -/
inductive StackAct (σ : Type) where
  | stay
  | push (s : σ)
  | pop
  | popPush (s : σ)

/-- `'#pop'` with pygments' guard: the bottom state is never popped. -/
def stackPop {σ : Type} : List σ → List σ
  | [s] => [s]
  | _ :: rest => rest
  | [] => []

def applyAct {σ : Type} (st : List σ) : StackAct σ → List σ
  | .stay => st
  | .push s => s :: st
  | .pop => stackPop st
  | .popPush s => s :: stackPop st

/-- A lexer rule: matcher, emitted token kind, state transition. -/
abbrev LexRule (σ : Type) : Type := (List Char → Option Nat) × TType × StackAct σ

/-- First matching rule wins (the inner `for` loop of
`get_tokens_unprocessed`). -/
def tryRules {σ : Type} : List (LexRule σ) → List Char → Option (TType × Nat × StackAct σ)
  | [], _ => none
  | (m, tt, act) :: rest, cs =>
    match m cs with
    | some n => some (tt, n, act)
    | none => tryRules rest cs

/-- Every rule of the table matches at least one and at most all remaining
characters. -/
def RulesBounded {σ : Type} (rules : List (LexRule σ)) : Prop :=
  ∀ r ∈ rules, ∀ cs n, r.1 cs = some n → 1 ≤ n ∧ n ≤ List.length cs

theorem tryRules_bounds {σ : Type} {rules : List (LexRule σ)} {cs : List Char}
    {tt : TType} {n : Nat} {act : StackAct σ}
    (hb : RulesBounded rules) (h : tryRules rules cs = some (tt, n, act)) :
    1 ≤ n ∧ n ≤ cs.length := by
  induction rules with
  | nil => simp [tryRules] at h
  | cons r rest ih =>
    match r with
    | (m, tt', act') =>
      simp only [tryRules] at h
      split at h
      · rename_i k hk
        simp only [Option.some.injEq, Prod.mk.injEq] at h
        obtain ⟨h1, h2, h3⟩ := h
        subst h2
        exact hb (m, tt', act') (by simp) cs k hk
      · exact ih (fun r hr => hb r (by simp [hr])) h

/-! ## `PayloadLexer` (the JSON-like payload sub-grammar) -/

/-- The states of `PayloadLexer.tokens` (`value` and `numbers` are
`include`s, inlined into the states that use them). -/
inductive PState where
  | proot | dictKey | dictValue | arrayValues
  | dqsKey | sqsKey | pdqs | psqs
deriving DecidableEq, Repr

/-- `dqs(ttype)` from `peek/lexers.py`: pop on `"`, escapes, inner-string
rules. -/
def dqs (tt : TType) : List (LexRule PState) :=
  [ (matchLit '"', tt, .pop),
    (matchStrEscape '"', .stringEscape, .stay),
    (matchInner, tt, .stay),
    (matchQuoteOrBack, tt, .stay) ]

/-- `sqs(ttype)` from `peek/lexers.py`: pop on `'`, escapes, inner-string
rules. -/
def sqs (tt : TType) : List (LexRule PState) :=
  [ (matchLit '\'', tt, .pop),
    (matchStrEscape '\'', .stringEscape, .stay),
    (matchInner, tt, .stay),
    (matchQuoteOrBack, tt, .stay) ]

/-- The `numbers` rule set, in source order. -/
def numberRules : List (LexRule PState) :=
  [ (matchFloatDot, .numberFloat, .stay),
    (matchFloatExp, .numberFloat, .stay),
    (matchOct, .numberOct, .stay),
    (matchBin, .numberBin, .stay),
    (matchHex, .numberHex, .stay),
    (matchIntLong, .numberIntegerLong, .stay),
    (matchInt, .numberInteger, .stay) ]

/-- The `value` rule set, in source order (`include('numbers')` inlined). -/
def valueRules : List (LexRule PState) :=
  [ (matchComment, .comment, .stay),
    (matchLit '{', .curlyLeft, .push .dictKey),
    (matchLit '[', .bracketLeft, .push .arrayValues),
    (matchLit '"', .stringDouble, .push .pdqs),
    (matchLit '\'', .stringSingle, .push .psqs),
    (matchWordsCI ["true".data, "false".data, "null".data], .nameBuiltin, .stay) ]
  ++ numberRules
  ++ [ (matchWs, .whitespace, .stay) ]

/-- `PayloadLexer.tokens`, state by state, rules in source order.  Note the
source's `'sqs': dqs(String.Single)` — the single-quoted *value* state is
wired to the double-quote rule set (while `'sqs-key'` correctly uses
`sqs`). -/
def payloadStateRules : PState → List (LexRule PState)
  | .proot =>
    [ (matchComment, .comment, .stay),
      (matchLit '{', .curlyLeft, .push .dictKey),
      (matchWs, .whitespace, .stay) ]
  | .dictKey =>
    [ (matchComment, .comment, .stay),
      (matchLit '}', .curlyRight, .pop),
      (matchLit '"', .stringSymbol, .push .dqsKey),
      (matchLit '\'', .stringSymbol, .push .sqsKey),
      (matchLit ':', .colon, .popPush .dictValue),
      (matchWs, .whitespace, .stay) ]
  | .dictValue =>
    [ (matchLit ',', .comma, .popPush .dictKey),
      (matchLit '}', .curlyRight, .pop) ]
    ++ valueRules
  | .arrayValues =>
    [ (matchLit ',', .comma, .stay),
      (matchLit ']', .bracketRight, .pop) ]
    ++ valueRules
  | .dqsKey => dqs .stringSymbol
  | .sqsKey => sqs .stringSymbol
  | .pdqs => dqs .stringDouble
  | .psqs => dqs .stringSingle

/-- One step of the payload sub-lexer at the top state; returns the emitted
token's kind, the number of characters consumed, and the new stack
(including the no-rule-matches fallback). -/
def payloadStep (st : List PState) (cs : List Char) : TType × Nat × List PState :=
  match tryRules (payloadStateRules (st.headD .proot)) cs with
  | some (tt, n, act) => (tt, n, applyAct st act)
  | none =>
    match cs.head? with
    | some '\n' => (.text, 1, [.proot])
    | _ => (.error, 1, st)

theorem rulesBounded_nil {σ : Type} : RulesBounded ([] : List (LexRule σ)) := by
  intro r hr
  simp at hr

theorem rulesBounded_cons {σ : Type} {m : List Char → Option Nat} {tt : TType}
    {act : StackAct σ} {rest : List (LexRule σ)}
    (hm : ∀ cs n, m cs = some n → 1 ≤ n ∧ n ≤ List.length cs)
    (hrest : RulesBounded rest) : RulesBounded ((m, tt, act) :: rest) := by
  intro r hr cs n h
  rcases List.mem_cons.mp hr with rfl | hr
  · exact hm cs n h
  · exact hrest r hr cs n h

theorem rulesBounded_append {σ : Type} {r1 r2 : List (LexRule σ)}
    (h1 : RulesBounded r1) (h2 : RulesBounded r2) : RulesBounded (r1 ++ r2) := by
  intro r hr
  rcases List.mem_append.mp hr with hr | hr
  · exact h1 r hr
  · exact h2 r hr

theorem numberRules_bounded : RulesBounded numberRules := by
  refine rulesBounded_cons (fun cs n h => matchFloatDot_bounds h) ?_
  refine rulesBounded_cons (fun cs n h => matchFloatExp_bounds h) ?_
  refine rulesBounded_cons (fun cs n h => matchOct_bounds h) ?_
  refine rulesBounded_cons (fun cs n h => matchBin_bounds h) ?_
  refine rulesBounded_cons (fun cs n h => matchHex_bounds h) ?_
  refine rulesBounded_cons (fun cs n h => matchIntLong_bounds h) ?_
  exact rulesBounded_cons (fun cs n h => matchInt_bounds h) rulesBounded_nil

theorem valueRules_bounded : RulesBounded valueRules := by
  have hwords : ∀ w ∈ ["true".data, "false".data, "null".data], w ≠ [] := by decide
  refine rulesBounded_cons (fun cs n h => matchComment_bounds h) ?_
  refine rulesBounded_cons (fun cs n h => matchLit_bounds h) ?_
  refine rulesBounded_cons (fun cs n h => matchLit_bounds h) ?_
  refine rulesBounded_cons (fun cs n h => matchLit_bounds h) ?_
  refine rulesBounded_cons (fun cs n h => matchLit_bounds h) ?_
  refine rulesBounded_cons (fun cs n h => matchWordsCI_bounds hwords h) ?_
  exact rulesBounded_append numberRules_bounded
    (rulesBounded_cons (fun cs n h => matchWs_bounds h) rulesBounded_nil)

theorem dqs_bounded (tt : TType) : RulesBounded (dqs tt) := by
  refine rulesBounded_cons (fun cs n h => matchLit_bounds h) ?_
  refine rulesBounded_cons (fun cs n h => matchStrEscape_bounds h) ?_
  refine rulesBounded_cons (fun cs n h => matchInner_bounds h) ?_
  exact rulesBounded_cons (fun cs n h => matchQuoteOrBack_bounds h) rulesBounded_nil

theorem sqs_bounded (tt : TType) : RulesBounded (sqs tt) := by
  refine rulesBounded_cons (fun cs n h => matchLit_bounds h) ?_
  refine rulesBounded_cons (fun cs n h => matchStrEscape_bounds h) ?_
  refine rulesBounded_cons (fun cs n h => matchInner_bounds h) ?_
  exact rulesBounded_cons (fun cs n h => matchQuoteOrBack_bounds h) rulesBounded_nil

theorem payloadStateRules_bounded (s : PState) : RulesBounded (payloadStateRules s) := by
  cases s
  · refine rulesBounded_cons (fun cs n h => matchComment_bounds h) ?_
    refine rulesBounded_cons (fun cs n h => matchLit_bounds h) ?_
    exact rulesBounded_cons (fun cs n h => matchWs_bounds h) rulesBounded_nil
  · refine rulesBounded_cons (fun cs n h => matchComment_bounds h) ?_
    refine rulesBounded_cons (fun cs n h => matchLit_bounds h) ?_
    refine rulesBounded_cons (fun cs n h => matchLit_bounds h) ?_
    refine rulesBounded_cons (fun cs n h => matchLit_bounds h) ?_
    refine rulesBounded_cons (fun cs n h => matchLit_bounds h) ?_
    exact rulesBounded_cons (fun cs n h => matchWs_bounds h) rulesBounded_nil
  · refine rulesBounded_append ?_ valueRules_bounded
    refine rulesBounded_cons (fun cs n h => matchLit_bounds h) ?_
    exact rulesBounded_cons (fun cs n h => matchLit_bounds h) rulesBounded_nil
  · refine rulesBounded_append ?_ valueRules_bounded
    refine rulesBounded_cons (fun cs n h => matchLit_bounds h) ?_
    exact rulesBounded_cons (fun cs n h => matchLit_bounds h) rulesBounded_nil
  · exact dqs_bounded _
  · exact sqs_bounded _
  · exact dqs_bounded _
  · exact dqs_bounded _

theorem payloadStep_bounds (st : List PState) (cs : List Char) (hne : cs ≠ []) :
    1 ≤ (payloadStep st cs).2.1 ∧ (payloadStep st cs).2.1 ≤ cs.length := by
  simp only [payloadStep]
  split
  · rename_i tt n act h
    exact tryRules_bounds (payloadStateRules_bounded _) h
  · have hpos : 1 ≤ cs.length := List.length_pos.mpr hne
    split <;> simp <;> omega

/-- The driver loop of `get_tokens_unprocessed`, fuel-indexed.  One token is
emitted per step; the position advances by the step's consumed length.
`payloadStep_bounds` shows each step consumes at least one character, so
fuel equal to the input length always suffices
(`payloadRun_join` below). -/
def payloadRun : Nat → List PState → Nat → List Char → List Tok
  | 0, _, _, _ => []
  | _ + 1, _, _, [] => []
  | fuel + 1, st, pos, c :: rest =>
    let r := payloadStep st (c :: rest)
    ⟨pos, r.1, (c :: rest).take r.2.1⟩ ::
      payloadRun fuel r.2.2 (pos + r.2.1) ((c :: rest).drop r.2.1)

/-- `PayloadLexer.get_tokens_unprocessed(text)`: run from state `root` of the
payload sub-grammar at offset 0 (`using(PayloadLexer)` rebases offsets by
the position of the payload group, modelled by starting `pos` there). -/
def payloadTokenize (pos : Nat) (cs : List Char) : List Tok :=
  payloadRun cs.length [.proot] pos cs

/-- Concatenation of the token texts. -/
def toksJoin (l : List Tok) : List Char := (l.map Tok.value).flatten

/-- The tokens' spans are consecutive starting at `pos`: each token's
`index` is the end of the previous one. -/
def Chained : Nat → List Tok → Prop
  | _, [] => True
  | pos, t :: rest => t.index = pos ∧ Chained (pos + t.value.length) rest

theorem chained_nil (pos : Nat) : Chained pos [] := trivial

theorem chained_cons (pos : Nat) (t : Tok) (rest : List Tok) :
    Chained pos (t :: rest) ↔ t.index = pos ∧ Chained (pos + t.value.length) rest :=
  Iff.rfl

@[simp] theorem toksJoin_nil : toksJoin [] = [] := rfl

@[simp] theorem toksJoin_cons (t : Tok) (l : List Tok) :
    toksJoin (t :: l) = t.value ++ toksJoin l := by
  simp [toksJoin]

theorem payloadRun_join (fuel : Nat) (st : List PState) (pos : Nat) (cs : List Char)
    (hf : cs.length ≤ fuel) : toksJoin (payloadRun fuel st pos cs) = cs := by
  induction fuel generalizing st pos cs with
  | zero =>
    match cs with
    | [] => rfl
    | c :: rest => simp at hf
  | succ fuel ih =>
    match cs with
    | [] => rfl
    | c :: rest =>
      have hb := payloadStep_bounds st (c :: rest) (by simp)
      simp only [payloadRun, toksJoin_cons]
      rw [ih _ _ _ (by simp only [List.length_drop]; simp at hf ⊢; omega)]
      exact List.take_append_drop _ _

theorem payloadRun_chained (fuel : Nat) (st : List PState) (pos : Nat) (cs : List Char)
    (hf : cs.length ≤ fuel) : Chained pos (payloadRun fuel st pos cs) := by
  induction fuel generalizing st pos cs with
  | zero =>
    match cs with
    | [] => trivial
    | c :: rest => simp at hf
  | succ fuel ih =>
    match cs with
    | [] => trivial
    | c :: rest =>
      have hb := payloadStep_bounds st (c :: rest) (by simp)
      refine ⟨rfl, ?_⟩
      have hlen : ((c :: rest).take (payloadStep st (c :: rest)).2.1).length
          = (payloadStep st (c :: rest)).2.1 := by
        rw [List.length_take]
        omega
      simp only [hlen]
      exact ih _ _ _ (by simp only [List.length_drop]; simp at hf ⊢; omega)

theorem payloadRun_nonempty (fuel : Nat) (st : List PState) (pos : Nat) (cs : List Char) :
    ∀ t ∈ payloadRun fuel st pos cs, t.value ≠ [] := by
  induction fuel generalizing st pos cs with
  | zero =>
    match cs with
    | [] => simp [payloadRun]
    | c :: rest => simp [payloadRun]
  | succ fuel ih =>
    match cs with
    | [] => simp [payloadRun]
    | c :: rest =>
      have hb := payloadStep_bounds st (c :: rest) (by simp)
      intro t ht
      simp only [payloadRun, List.mem_cons] at ht
      rcases ht with rfl | ht
      · simp only [ne_eq, List.take_eq_nil_iff]
        push_neg
        exact ⟨by omega, by simp⟩
      · exact ih _ _ _ t ht

/-! ## `PeekLexer` (the main lexer) -/

/-- The states of `PeekLexer.tokens`. -/
inductive MState where
  | root | path | payload | command | args
deriving DecidableEq, Repr

/-- The table-driven rules of the main lexer's states.  The two rules that
are not plain table rules are handled in `mainStep`: `root`'s
`^(\s*)(%)` rule (anchored: `re.MULTILINE` is overridden away by
`flags = re.IGNORECASE`, so `^` matches only at offset 0) and the whole
`payload` state (`(?s)(.*)` lexed with `using(PayloadLexer)`). -/
def mainStateRules : MState → List (LexRule MState)
  | .root =>
    [ (matchComment, .comment, .stay),
      (matchWs, .whitespace, .stay),
      (matchWordsCI ["GET".data, "POST".data, "PUT".data, "DELETE".data],
        .httpMethod, .popPush .path) ]
  | .path =>
    [ (matchWs, .whitespace, .stay),
      (matchNonWs, .literal, .popPush .payload) ]
  | .payload => []
  | .command =>
    [ (matchNonWs, .nameBuiltin, .popPush .args),
      (matchWs, .whitespace, .stay) ]
  | .args =>
    [ (matchComment, .comment, .stay),
      (matchNonWs, .literal, .stay),
      (matchWs, .whitespace, .stay) ]

/-- `^(\s*)(%)` at offset 0: greedy leading whitespace, then the percent
sign.  Returns (whitespace-group length, total match length). -/
def matchPercentCmd (cs : List Char) : Option (Nat × Nat) :=
  let n := (cs.takeWhile pySpace).length
  match (cs.drop n).head? with
  | some c => if c = '%' then some (n, n + 1) else none
  | none => none

/-- One step of the main lexer: emits the step's tokens (always nonempty
span-wise), the consumed length, and the new stack.

* state `payload`: the rule `(?s)(.*)` always matches the whole remainder;
  `bygroups(using(PayloadLexer))` emits the sub-lexer's tokens rebased at
  the current position, and the state pops;
* other states: the rule table, in order; then (only in `root`, at offset 0)
  the `^(\s*)(%)` rule, whose `bygroups(Whitespace, Percent)` drops an empty
  whitespace group;
* fallback: unmatched `'\n'` resets to `['root']` and is emitted as `Text`;
  any other unmatched character becomes a length-1 `Error` token. -/
def mainStep (st : List MState) (pos : Nat) (cs : List Char) :
    List Tok × Nat × List MState :=
  match st.headD .root with
  | .payload => (payloadTokenize pos cs, cs.length, stackPop st)
  | s =>
    match tryRules (mainStateRules s) cs with
    | some (tt, n, act) => ([⟨pos, tt, cs.take n⟩], n, applyAct st act)
    | none =>
      match
        (if s = .root ∧ pos = 0 then matchPercentCmd cs else none) with
      | some (nws, ntot) =>
        ((if nws = 0 then [] else [⟨pos, .whitespace, cs.take nws⟩]) ++
          [⟨pos + nws, .percent, (cs.drop nws).take 1⟩],
         ntot, .command :: stackPop st)
      | none =>
        match cs.head? with
        | some '\n' => ([⟨pos, .text, ['\n']⟩], 1, [.root])
        | _ => ([⟨pos, .error, cs.take 1⟩], 1, st)

theorem mainStateRules_bounded (s : MState) : RulesBounded (mainStateRules s) := by
  have hwords : ∀ w ∈ ["GET".data, "POST".data, "PUT".data, "DELETE".data], w ≠ [] := by
    decide
  cases s
  · refine rulesBounded_cons (fun cs n h => matchComment_bounds h) ?_
    refine rulesBounded_cons (fun cs n h => matchWs_bounds h) ?_
    exact rulesBounded_cons (fun cs n h => matchWordsCI_bounds hwords h) rulesBounded_nil
  · refine rulesBounded_cons (fun cs n h => matchWs_bounds h) ?_
    exact rulesBounded_cons (fun cs n h => matchNonWs_bounds h) rulesBounded_nil
  · exact rulesBounded_nil
  · refine rulesBounded_cons (fun cs n h => matchNonWs_bounds h) ?_
    exact rulesBounded_cons (fun cs n h => matchWs_bounds h) rulesBounded_nil
  · refine rulesBounded_cons (fun cs n h => matchComment_bounds h) ?_
    refine rulesBounded_cons (fun cs n h => matchNonWs_bounds h) ?_
    exact rulesBounded_cons (fun cs n h => matchWs_bounds h) rulesBounded_nil

theorem matchPercentCmd_bounds {cs : List Char} {nws ntot : Nat}
    (h : matchPercentCmd cs = some (nws, ntot)) :
    nws + 1 = ntot ∧ 1 ≤ ntot ∧ ntot ≤ cs.length := by
  simp only [matchPercentCmd] at h
  split at h
  · rename_i c hc
    have := drop_head?_some_lt hc
    split at h
    · simp only [Option.some.injEq, Prod.mk.injEq] at h
      obtain ⟨h1, h2⟩ := h
      omega
    · exact absurd h (by simp)
  · exact absurd h (by simp)

theorem mainStep_bounds (st : List MState) (pos : Nat) (cs : List Char) (hne : cs ≠ []) :
    1 ≤ (mainStep st pos cs).2.1 ∧ (mainStep st pos cs).2.1 ≤ cs.length := by
  have hpos : 1 ≤ cs.length := List.length_pos.mpr hne
  simp only [mainStep]
  split
  · simpa using hpos
  · rename_i s hs
    split
    · rename_i tt n act h
      exact tryRules_bounds (mainStateRules_bounded _) h
    · split
      · rename_i nws ntot hp
        split at hp
        · have := matchPercentCmd_bounds hp
          simpa using ⟨this.2.1, this.2.2⟩
        · exact absurd hp (by simp)
      · split <;> simpa using hpos

/-- The step's emitted tokens partition exactly the consumed prefix, chained
at the current position, with no empty token. -/
theorem mainStep_spec (st : List MState) (pos : Nat) (cs : List Char) (hne : cs ≠ []) :
    toksJoin (mainStep st pos cs).1 = cs.take (mainStep st pos cs).2.1 ∧
    Chained pos (mainStep st pos cs).1 ∧
    ∀ t ∈ (mainStep st pos cs).1, t.value ≠ [] := by
  have hpos : 1 ≤ cs.length := List.length_pos.mpr hne
  simp only [mainStep]
  split
  · refine ⟨?_, ?_, ?_⟩
    · rw [List.take_length]
      exact payloadRun_join _ _ _ _ le_rfl
    · exact payloadRun_chained _ _ _ _ le_rfl
    · exact payloadRun_nonempty _ _ _ _
  · rename_i s hs
    split
    · rename_i tt n act h
      have hb := tryRules_bounds (mainStateRules_bounded _) h
      refine ⟨by simp, ⟨rfl, trivial⟩, ?_⟩
      intro t ht
      simp only [List.mem_singleton] at ht
      subst ht
      simp only [ne_eq, List.take_eq_nil_iff]
      push_neg
      exact ⟨by omega, hne⟩
    · split
      · rename_i nws ntot hp
        split at hp
        · have hb := matchPercentCmd_bounds hp
          have hlt : nws < cs.length := by omega
          have hdt : ((cs.drop nws).take 1).length = 1 := by
            rw [List.length_take, List.length_drop]
            omega
          by_cases hz : nws = 0
          · subst hz
            have hnt : ntot = 1 := by omega
            subst hnt
            refine ⟨?_, ?_, ?_⟩
            · simp
            · simp only [reduceIte, List.nil_append]
              exact (chained_cons _ _ _).mpr ⟨by simp, trivial⟩
            · intro t ht
              simp only [reduceIte, List.nil_append, List.mem_singleton] at ht
              subst ht
              simp only [ne_eq, List.take_eq_nil_iff, List.drop_zero]
              push_neg
              exact ⟨by omega, hne⟩
          · have hnt : ntot = nws + 1 := by omega
            subst hnt
            have hwl : (List.take nws cs).length = nws := by
              rw [List.length_take]
              omega
            refine ⟨?_, ?_, ?_⟩
            · rw [if_neg hz]
              simp only [List.cons_append, List.nil_append, toksJoin_cons, toksJoin_nil,
                List.append_nil, List.take_add]
            · rw [if_neg hz]
              simp only [List.cons_append, List.nil_append]
              refine (chained_cons _ _ _).mpr ⟨rfl, ?_⟩
              rw [hwl]
              exact (chained_cons _ _ _).mpr ⟨rfl, trivial⟩
            · intro t ht
              rw [if_neg hz] at ht
              simp only [List.cons_append, List.nil_append, List.mem_cons,
                List.not_mem_nil, or_false] at ht
              rcases ht with rfl | rfl
              · simp only [ne_eq, List.take_eq_nil_iff]
                push_neg
                exact ⟨hz, hne⟩
              · simp only [ne_eq, ← List.length_eq_zero]
                omega
        · exact absurd hp (by simp)
      · have h1 : cs.take 1 ≠ [] := by
          simp only [ne_eq, List.take_eq_nil_iff]
          push_neg
          exact ⟨by omega, hne⟩
        split
        · rename_i c hc
          rcases List.head?_eq_some_iff.mp hc with ⟨rest, hr⟩
          subst hr
          exact ⟨by simp, ⟨rfl, trivial⟩, by simp⟩
        · exact ⟨by simp, ⟨rfl, trivial⟩, by simpa using h1⟩

/-- The driver loop of `PeekLexer.get_tokens_unprocessed`, fuel-indexed
exactly like `payloadRun`. -/
def mainRun : Nat → List MState → Nat → List Char → List Tok
  | 0, _, _, _ => []
  | _ + 1, _, _, [] => []
  | fuel + 1, st, pos, c :: rest =>
    let r := mainStep st pos (c :: rest)
    r.1 ++ mainRun fuel r.2.2 (pos + r.2.1) ((c :: rest).drop r.2.1)

/-- `PeekLexer().get_tokens_unprocessed(text)` on the character list of the
text: stack `['root']`, position 0.  Fuel is the input length;
`mainRun_join` proves it suffices. -/
def tokenizeChars (cs : List Char) : List Tok := mainRun cs.length [.root] 0 cs

/-- `PeekLexer().get_tokens_unprocessed(text)`. -/
def get_tokens_unprocessed (s : String) : List Tok := tokenizeChars s.data

theorem chained_append {pos : Nat} {l1 l2 : List Tok}
    (h1 : Chained pos l1) (h2 : Chained (pos + (toksJoin l1).length) l2) :
    Chained pos (l1 ++ l2) := by
  induction l1 generalizing pos with
  | nil => simpa using h2
  | cons t rest ih =>
    obtain ⟨hidx, hrest⟩ := h1
    refine ⟨hidx, ?_⟩
    refine ih hrest ?_
    have heq : pos + t.value.length + (toksJoin rest).length
        = pos + (toksJoin (t :: rest)).length := by
      simp only [toksJoin_cons, List.length_append]
      omega
    rw [heq]
    exact h2

theorem toksJoin_append (l1 l2 : List Tok) :
    toksJoin (l1 ++ l2) = toksJoin l1 ++ toksJoin l2 := by
  simp [toksJoin]

theorem mainRun_join (fuel : Nat) (st : List MState) (pos : Nat) (cs : List Char)
    (hf : cs.length ≤ fuel) : toksJoin (mainRun fuel st pos cs) = cs := by
  induction fuel generalizing st pos cs with
  | zero =>
    match cs with
    | [] => rfl
    | c :: rest => simp at hf
  | succ fuel ih =>
    match cs with
    | [] => rfl
    | c :: rest =>
      have hb := mainStep_bounds st pos (c :: rest) (by simp)
      have hs := mainStep_spec st pos (c :: rest) (by simp)
      simp only [mainRun, toksJoin_append, hs.1]
      rw [ih _ _ _ (by simp only [List.length_drop]; simp at hf ⊢; omega)]
      exact List.take_append_drop _ _

theorem mainRun_chained (fuel : Nat) (st : List MState) (pos : Nat) (cs : List Char)
    (hf : cs.length ≤ fuel) : Chained pos (mainRun fuel st pos cs) := by
  induction fuel generalizing st pos cs with
  | zero =>
    match cs with
    | [] => trivial
    | c :: rest => simp at hf
  | succ fuel ih =>
    match cs with
    | [] => trivial
    | c :: rest =>
      have hb := mainStep_bounds st pos (c :: rest) (by simp)
      have hs := mainStep_spec st pos (c :: rest) (by simp)
      simp only [mainRun]
      refine chained_append hs.2.1 ?_
      rw [hs.1, List.length_take]
      have hmin : min (mainStep st pos (c :: rest)).2.1 (c :: rest).length
          = (mainStep st pos (c :: rest)).2.1 := by omega
      rw [hmin]
      exact ih _ _ _ (by simp only [List.length_drop]; simp at hf ⊢; omega)

theorem mainRun_nonempty (fuel : Nat) (st : List MState) (pos : Nat) (cs : List Char) :
    ∀ t ∈ mainRun fuel st pos cs, t.value ≠ [] := by
  induction fuel generalizing st pos cs with
  | zero =>
    match cs with
    | [] => simp [mainRun]
    | c :: rest => simp [mainRun]
  | succ fuel ih =>
    match cs with
    | [] => simp [mainRun]
    | c :: rest =>
      have hs := mainStep_spec st pos (c :: rest) (by simp)
      intro t ht
      simp only [mainRun, List.mem_append] at ht
      rcases ht with ht | ht
      · exact hs.2.2 t ht
      · exact ih _ _ _ t ht

/-- Every token of a chained list lies between `pos` and the end of the
joined text. -/
theorem chained_mem_bounds {pos : Nat} {l : List Tok} (h : Chained pos l) :
    ∀ t ∈ l, pos ≤ t.index ∧ t.index + t.value.length ≤ pos + (toksJoin l).length := by
  induction l generalizing pos with
  | nil => simp
  | cons u rest ih =>
    obtain ⟨hidx, hrest⟩ := h
    intro t ht
    rcases List.mem_cons.mp ht with rfl | ht
    · subst hidx
      simp only [toksJoin_cons, List.length_append]
      omega
    · have := ih hrest t ht
      simp only [toksJoin_cons, List.length_append]
      omega

theorem chained_pairwise {pos : Nat} {l : List Tok} (h : Chained pos l) :
    l.Pairwise (fun a b => a.index + a.value.length ≤ b.index) := by
  induction l generalizing pos with
  | nil => exact List.Pairwise.nil
  | cons t rest ih =>
    obtain ⟨hidx, hrest⟩ := h
    refine List.Pairwise.cons ?_ (ih hrest)
    intro b hb
    have := (chained_mem_bounds hrest b hb).1
    omega

/-! ## The URL path sub-lexer -/

/-- Phase of the URL sub-lexer: before `?` (path), expecting a parameter
name, or expecting a parameter value. -/
inductive UrlPhase where
  | path | qname | qvalue
deriving DecidableEq, Repr

/-- Modelled from the spec: `UrlPathLexer` is imported by the completer from
`peek.lexers` but is not present in the source tree.  Per the spec (§4.1)
it "tokenizes only the path-token text in isolation: it splits on `/` into
PathPart/Slash, and after a `?` or `&` splits `name=value` pairs into
ParamName/Equals/ParamValue"; `?` and `&` themselves carry the
QuestionMark/Ampersand kinds of the spec's TokenKind enumeration (§3).
Fuel-indexed like the other lexers; each step consumes at least one
character, so fuel equal to the input length suffices. -/
def urlRun : Nat → UrlPhase → Nat → List Char → List Tok
  | 0, _, _, _ => []
  | _ + 1, _, _, [] => []
  | fuel + 1, .path, pos, c :: rest =>
    if c = '/' then ⟨pos, .slash, ['/']⟩ :: urlRun fuel .path (pos + 1) rest
    else if c = '?' then ⟨pos, .questionMark, ['?']⟩ :: urlRun fuel .qname (pos + 1) rest
    else
      let seg := rest.takeWhile (fun d => ¬ (d = '/' ∨ d = '?'))
      ⟨pos, .pathPart, c :: seg⟩ ::
        urlRun fuel .path (pos + 1 + seg.length) (rest.drop seg.length)
  | fuel + 1, .qname, pos, c :: rest =>
    if c = '&' then ⟨pos, .ampersand, ['&']⟩ :: urlRun fuel .qname (pos + 1) rest
    else if c = '=' then ⟨pos, .equals, ['=']⟩ :: urlRun fuel .qvalue (pos + 1) rest
    else
      let seg := rest.takeWhile (fun d => ¬ (d = '&' ∨ d = '='))
      ⟨pos, .paramName, c :: seg⟩ ::
        urlRun fuel .qname (pos + 1 + seg.length) (rest.drop seg.length)
  | fuel + 1, .qvalue, pos, c :: rest =>
    if c = '&' then ⟨pos, .ampersand, ['&']⟩ :: urlRun fuel .qname (pos + 1) rest
    else
      let seg := rest.takeWhile (fun d => ¬ (d = '&'))
      ⟨pos, .paramValue, c :: seg⟩ ::
        urlRun fuel .qvalue (pos + 1 + seg.length) (rest.drop seg.length)

/-- `UrlPathLexer().get_tokens_unprocessed(path)` (modelled from the spec,
see `urlRun`). -/
def url_tokenize (cs : List Char) : List Tok := urlRun cs.length .path 0 cs

/-! ## The token-stream normalizer -/

/-- Merge runs of adjacent Error tokens: the merged token keeps the first
token's start offset and concatenates the texts (spec §4.4 step 1: "merge
adjacent Error tokens into one token spanning the merged range").  In the
raw stream adjacency in the list is adjacency in the text, because the
token spans partition the input. -/
def mergeErrs : List Tok → List Tok
  | [] => []
  | t :: rest =>
    match mergeErrs rest with
    | u :: us =>
      if t.ttype = .error ∧ u.ttype = .error then
        ⟨t.index, .error, t.value ++ u.value⟩ :: us
      else t :: u :: us
    | [] => [t]

/-- Modelled from the spec: `process_tokens` (from `peek.parser`) is
imported by the completer but is not present in the source tree.  The spec
(§2, §4.4 step 1) says it "coalesces adjacent error tokens so downstream
consumers see at most one error span per broken region".  The completer in
`completer.py` additionally requires the normalized stream to carry no
whitespace/comment tokens (its comments speak of "the last non-white
token", and `_complete_path` reads `tokens[-2]` as the HttpMethod token of
`GET /path`, which has an intervening Whitespace token in the raw stream;
the spec's §3 token invariant likewise sets whitespace/comment kinds
aside), so the model filters those kinds out after merging. -/
def process_tokens (toks : List Tok) : List Tok :=
  (mergeErrs toks).filter (fun t => ¬ (t.ttype = .whitespace ∨ t.ttype = .comment))

/-! ## The completer (`peek/completer.py`) -/

/-- `prompt_toolkit.completion.Completion`: the candidate text and the
`start_position` passed at construction (0 everywhere in this code: pure
insertion). -/
structure Completion where
  text : String
  start_position : Int
deriving DecidableEq, Repr

/-- Python `s.startswith(pre)`. -/
def str_startswith (s pre : String) : Bool := pre.data.isPrefixOf s.data

/-- Python `s.endswith(suf)`. -/
def str_endswith (s suf : String) : Bool := suf.data.isSuffixOf s.data

/-- Python `s.split(sep)` for a one-character separator: every occurrence
of the separator splits, empty pieces included (`''.split('/') == ['']`,
`'/a/'.split('/') == ['', 'a', '']`). -/
def splitOnChar (sep : Char) : List Char → List (List Char)
  | [] => [[]]
  | c :: rest =>
    let r := splitOnChar sep rest
    if c = sep then [] :: r
    else
      match r with
      | x :: xs => (c :: x) :: xs
      | [] => [[c]]

def str_split (s : String) (sep : Char) : List String :=
  (splitOnChar sep s.data).map String.mk

/-- Python `s.upper()` (ASCII). -/
def str_upper (s : String) : String := String.mk (s.data.map Char.toUpper)

/-- `can_match(ts, ps)` from `peek/completer.py`: zip the two segment
lists; positions agree if equal, otherwise the typed segment must not be
underscore-prefixed and the spec segment must be `{`…`}`-wrapped. -/
def can_match : List String → List String → Bool
  | t :: ts, p :: ps =>
    if t = p then can_match ts ps
    else if str_startswith t "_" then false
    else if str_startswith p "\x7b" && str_endswith p "\x7d" then can_match ts ps
    else false
  | _, _ => true

/-- One `{path, methods}` element of an endpoint's `url.paths` list. -/
structure ApiPath where
  path : String
  methods : List String
deriving DecidableEq, Repr

/-- One endpoint spec: its path templates and the declared query-parameter
names (the keys of its `params` mapping; `[]` models an absent or empty
`params`, both falsy in `api_spec.get('params', None)`). -/
structure ApiSpecEntry where
  paths : List ApiPath
  params : List String
deriving DecidableEq, Repr

/-- The spec repository mapping (`endpoint name -> spec`), in iteration
order. -/
abbrev Specs := List (String × ApiSpecEntry)

/-- The function registry `NAMES` (consumed, not owned: a name-indexed
table whose entries optionally expose `option_names`).  `none` for the
attr models a function without the attribute or with `option_names =
None`. -/
abbrev FuncNames := List (String × Option (List String))

/-- First-match association lookup (`dict.get`). -/
def lookupDict {α : Type} : List (String × α) → String → Option α
  | [], _ => none
  | (k, v) :: rest, key => if k = key then some v else lookupDict rest key

/-- The typed segments `ts` of `_complete_path_part`: the non-Slash
URL-token texts, with the trailing (incomplete) segment popped when the
cursor token (the last URL token) is a PathPart. -/
def typed_path_segments (path_tokens : List Tok) : List String :=
  let ts0 := (path_tokens.filter (fun t => ¬ t.ttype = .slash)).map
    (fun t => String.mk t.value)
  match path_tokens.getLast? with
  | some ct => if ct.ttype = .pathPart then ts0.dropLast else ts0
  | none => ts0

/-- `[p for p in api_path['path'].split('/') if p]`. -/
def split_template (path : String) : List String :=
  (str_split path '/').filter (fun p => ¬ p = "")

/-- `PeekCompleter._complete_path_part` from `peek/completer.py`: every
spec path template of a matching method contributes its remaining segments
`'/'.join(ps[len(ts):])` as a `Completion(candidate, start_position=0)`
when `len(ts) < len(ps)` and `can_match(ts, ps)`.  (The final
`FuzzyCompleter` filtering belongs to prompt_toolkit and is outside the
model.) -/
def complete_path_part (method : String) (path_tokens : List Tok) (specs : Specs) :
    List Completion :=
  let ts := typed_path_segments path_tokens
  specs.flatMap (fun sp =>
    sp.2.paths.flatMap (fun ap =>
      if ap.methods.contains method then
        let ps := split_template ap.path
        if ts.length ≥ ps.length then []
        else if can_match ts ps then
          [⟨String.intercalate "/" (ps.drop ts.length), 0⟩]
        else []
      else []))

/-- Insertion-ordered set union (`candidates.update(...keys())`; the source
collects candidates in a Python `set`, whose contents the theorems state
by membership). -/
def setAdd (acc : List String) (ks : List String) : List String :=
  ks.foldl (fun a k => if a.contains k then a else a ++ [k]) acc

/-- The typed segments of `_complete_query_param_name`: the PathPart
URL-token texts. -/
def query_path_segments (path_tokens : List Tok) : List String :=
  (path_tokens.filter (fun t => t.ttype = .pathPart)).map (fun t => String.mk t.value)

/-- The body of `_complete_query_param_name`'s inner loop: one endpoint
path template's contribution to the candidate set. -/
def qp_step (method : String) (ts params : List String) (acc : List String)
    (ap : ApiPath) : List String :=
  if ap.methods.contains method then
    if params = [] then acc
    else
      let ps := split_template ap.path
      if ¬ ts.length = ps.length then acc
      else if can_match ts ps then setAdd acc params
      else acc
  else acc

/-- `PeekCompleter._complete_query_param_name` from `peek/completer.py`:
every endpoint with a matching method, a non-empty `params` set, a
template of exactly the same length and `can_match` contributes its
parameter names to the candidate set. -/
def complete_query_param_name (method : String) (path_tokens : List Tok) (specs : Specs) :
    List Completion :=
  let ts := query_path_segments path_tokens
  let candidates := specs.foldl (fun acc sp =>
    sp.2.paths.foldl (qp_step method ts sp.2.params) acc) []
  candidates.map (fun c => ⟨c, 0⟩)

/-- The backward scan of `PeekCompleter._complete_options` (`for t in
tokens[::-1]`), applied to the reversed token list.  `none` models the
Python `None` that the function returns when the loop falls off the end
without seeing an HttpMethod, FuncName or BlankLine token. -/
def optionScan : List Tok → FuncNames → Option (List String)
  | [], _ => none
  | t :: rest, names =>
    if t.ttype = .httpMethod then some (["conn", "runas"].map (fun w => w ++ "="))
    else if t.ttype = .funcName then
      match lookupDict names (String.mk t.value) with
      | none => some []
      | some optNames =>
        match optNames with
        | none => some []
        | some l => if l = [] then some [] else some (l.map (fun n => n ++ "="))
    else if t.ttype = .blankLine then some []
    else optionScan rest names

/-- `PeekCompleter._complete_options` from `peek/completer.py`: nothing
when the token list ends in an option-assignment marker; otherwise the
backward scan.  The `WordCompleter` construction and filtering belong to
prompt_toolkit; the model returns the offered words. -/
def complete_options (tokens : List Tok) (names : FuncNames) : Option (List String) :=
  match tokens.getLast? with
  | some t => if t.ttype = .assign then some [] else optionScan tokens.reverse names
  | none => optionScan [] names

/-- `PeekCompleter._complete_path` from `peek/completer.py`: re-lex the
path text up to the cursor with the URL sub-lexer and dispatch on the kind
of the last URL token. -/
def complete_path (specs : Specs) (tokens : List Tok) (cursor : Nat) :
    Option (List Completion) :=
  match tokens.getLast? with
  | none => some []
  | some path_token =>
    let method_token := tokens.getD (tokens.length - 2) ⟨0, .error, []⟩
    let method := str_upper (String.mk method_token.value)
    let cursor_position := cursor - path_token.index
    let path := path_token.value.take cursor_position
    let path_tokens := url_tokenize path
    match path_tokens.getLast? with
    | none => some []
    | some cursor_token =>
      if cursor_token.ttype = .pathPart ∨ cursor_token.ttype = .slash then
        some (complete_path_part method path_tokens specs)
      else if cursor_token.ttype = .paramName ∨ cursor_token.ttype = .questionMark ∨
          cursor_token.ttype = .ampersand then
        some (complete_query_param_name method path_tokens specs)
      else some []

/-- The token-location loop of `get_completions`: the first `(i, t)` with
`t.index < cursor <= t.index + len(t.value)`. -/
def findCursorTok (cursor : Nat) : Nat → List Tok → Option (Nat × Tok)
  | _, [] => none
  | i, t :: rest =>
    if t.index < cursor ∧ cursor ≤ t.index + t.value.length then some (i, t)
    else findCursorTok cursor (i + 1) rest

/-- Candidate words as prompt_toolkit completions with `start_position` 0
(pure insertion; spec §6). -/
def wrapWords (ws : List String) : List Completion := ws.map (fun w => ⟨w, 0⟩)

/-- `PeekCompleter.get_completions` from `peek/completer.py` over the text
and cursor offset of the `Document` (Python slices strings by characters,
modelled on the character list).  The result is `some` of the candidate
list, or `none` for the code path on which the Python function returns
`None` (see `optionScan`).  Word completers' prefix filtering and the
fuzzy filtering are prompt_toolkit's and outside the model. -/
def get_completions (specs : Specs) (names : FuncNames) (docText : String)
    (cursor : Nat) : Option (List Completion) :=
  let text := docText.data.take cursor
  let tokens := process_tokens (tokenizeChars text)
  match tokens.getLast? with
  | none => some []
  | some lastTok =>
    match findCursorTok cursor 0 tokens with
    | none =>
      if (text.drop (lastTok.index + lastTok.value.length)).contains '\n' then some []
      else (complete_options tokens names).map wrapWords
    | some (i, t) =>
      if t.ttype = .httpMethod ∨ t.ttype = .funcName then
        some (wrapWords (["GET", "POST", "PUT", "DELETE"] ++ names.map Prod.fst))
      else if 0 < i ∧ (tokens.getD (i - 1) ⟨0, .error, []⟩).ttype = .httpMethod then
        complete_path specs tokens cursor
      else if t.ttype = .error ∨ t.ttype = .keyName ∨ t.ttype = .name then
        (complete_options tokens.dropLast names).map wrapWords
      else some []

/-! ## The spec repository loader -/

/-- `dict` insertion: replace the value in place if the key exists,
otherwise append. -/
def dictInsert {α : Type} (m : List (String × α)) (kv : String × α) :
    List (String × α) :=
  if m.any (fun p => p.1 = kv.1) then
    m.map (fun p => if p.1 = kv.1 then (p.1, kv.2) else p)
  else m ++ [kv]

/-- `specs.update(d)`: insert every binding of `d`, in order. -/
def dictUpdate {α : Type} (m new : List (String × α)) : List (String × α) :=
  new.foldl dictInsert m

/-- `load_rest_api_spec` from `peek/completer.py`, with the filesystem
abstracted: `none` models a spec directory that does not exist, `some
files` the `os.listdir` listing together with each file's parsed JSON
mapping.  Returns the merged mapping and whether the missing-directory
warning was logged; the Lean function is total, modelling that the Python
function does not raise. -/
def load_rest_api_spec {α : Type} (dir : Option (List (String × List (String × α)))) :
    List (String × α) × Bool :=
  match dir with
  | none => ([], true)
  | some files =>
    let spec_files := files.filter (fun f => str_endswith f.1 ".json")
    (spec_files.foldl
      (fun specs f => if f.1 = "_common.json" then specs else dictUpdate specs f.2)
      [], false)

/-! ## Claim theorems -/

theorem can_match_iff (ts ps : List String) :
    can_match ts ps = true ↔
      ∀ i, i < min ts.length ps.length →
        (ts.getD i "" = ps.getD i "" ∨
          (¬ str_startswith (ts.getD i "") "_" = true ∧
            str_startswith (ps.getD i "") "\x7b" = true ∧
            str_endswith (ps.getD i "") "\x7d" = true)) := by
  induction ts generalizing ps with
  | nil =>
    simp [can_match]
  | cons t ts ih =>
    match ps with
    | [] => simp [can_match]
    | p :: ps =>
      constructor
      · intro h i hi
        simp only [can_match] at h
        split at h
        · rename_i heq
          match i with
          | 0 => exact Or.inl heq
          | i + 1 =>
            simp only [List.length_cons, lt_min_iff] at hi
            exact (ih ps).mp h i (by omega)
        · split at h
          · exact absurd h (by simp)
          · split at h
            · rename_i hne hu hw
              match i with
              | 0 =>
                simp only [Bool.and_eq_true] at hw
                exact Or.inr ⟨by simpa using hu, hw.1, hw.2⟩
              | i + 1 =>
                simp only [List.length_cons, lt_min_iff] at hi
                exact (ih ps).mp h i (by omega)
            · exact absurd h (by simp)
      · intro h
        simp only [can_match]
        have h0 := h 0 (by simp)
        simp only [List.getD_cons_zero] at h0
        have hrest : can_match ts ps = true := by
          refine (ih ps).mpr ?_
          intro i hi
          have := h (i + 1) (by simp only [List.length_cons, lt_min_iff] at hi ⊢; omega)
          simpa using this
        split
        · exact hrest
        · rename_i hne
          rcases h0 with heq | ⟨hu, hw1, hw2⟩
          · exact absurd heq hne
          · rw [if_neg (by simpa using hu), if_pos (by simp [hw1, hw2])]
            exact hrest

/-- C1: `can_match(T, P)` checks only the paired positions up to
`min(len(T), len(P))` and is true iff at every paired position the typed
segment equals the spec segment exactly, or the typed segment does not
start with `_` while the spec segment is wrapped in `{`…`}`; in
particular `can_match(["users","123"], ["users","{id}"])` is true,
`can_match(["_search"], ["{index}"])` is false, and
`can_match(["a"], ["b"])` is false. -/
theorem C1_can_match_characterization :
    (∀ ts ps : List String, can_match ts ps = true ↔
      ∀ i, i < min ts.length ps.length →
        (ts.getD i "" = ps.getD i "" ∨
          (¬ str_startswith (ts.getD i "") "_" = true ∧
            str_startswith (ps.getD i "") "\x7b" = true ∧
            str_endswith (ps.getD i "") "\x7d" = true)))
    ∧ can_match ["users", "123"] ["users", "\x7bid\x7d"] = true
    ∧ can_match ["_search"] ["\x7bindex\x7d"] = false
    ∧ can_match ["a"] ["b"] = false :=
  ⟨can_match_iff, by decide, by decide, by decide⟩

/-- Witness for C1 at a concrete input: the characterization applied to
`can_match(["prod"], ["{index}", "_search"])`. -/
theorem C1_can_match_characterization_witness :
    can_match ["prod"] ["\x7bindex\x7d", "_search"] = true :=
  (C1_can_match_characterization.1 ["prod"] ["\x7bindex\x7d", "_search"]).mpr (by decide)

/-- C4: for every input string the main lexer's `get_tokens_unprocessed`
terminates and its tokens partition the input: their texts concatenate to
the whole input, their spans are consecutive from offset 0 (hence
non-overlapping, covering every character — in particular every
non-whitespace character — exactly once), every token is nonempty, and
the tokens are strictly ordered by start offset.  Termination is embodied
by the fuel argument: the loop advances at least one character per step
(`mainStep_bounds`; the no-rule-matches fallback emits a length-1 token),
so fuel equal to the input length is proven sufficient here. -/
theorem C4_tokenize_terminates_partitions (s : String) :
    toksJoin (get_tokens_unprocessed s) = s.data
    ∧ Chained 0 (get_tokens_unprocessed s)
    ∧ (∀ t ∈ get_tokens_unprocessed s, t.value ≠ [])
    ∧ (get_tokens_unprocessed s).Pairwise
        (fun a b => a.index + a.value.length ≤ b.index ∧ a.index < b.index) := by
  have h1 := mainRun_join s.data.length [.root] 0 s.data le_rfl
  have h2 := mainRun_chained s.data.length [.root] 0 s.data le_rfl
  have h3 := mainRun_nonempty s.data.length [.root] 0 s.data
  refine ⟨h1, h2, h3, ?_⟩
  refine List.Pairwise.imp_of_mem ?_ (chained_pairwise h2)
  intro a b ha hb hr
  have hna := h3 a ha
  have hlen : 1 ≤ a.value.length := List.length_pos.mpr hna
  exact ⟨hr, by omega⟩

/-- Witness for C4 at a concrete input. -/
theorem C4_tokenize_terminates_partitions_witness :
    toksJoin (get_tokens_unprocessed "GET /a \x7b\"b\": 1\x7d") = "GET /a \x7b\"b\": 1\x7d".data
    ∧ Chained 0 (get_tokens_unprocessed "GET /a \x7b\"b\": 1\x7d")
    ∧ (∀ t ∈ get_tokens_unprocessed "GET /a \x7b\"b\": 1\x7d", t.value ≠ [])
    ∧ (get_tokens_unprocessed "GET /a \x7b\"b\": 1\x7d").Pairwise
        (fun a b => a.index + a.value.length ≤ b.index ∧ a.index < b.index) :=
  C4_tokenize_terminates_partitions "GET /a \x7b\"b\": 1\x7d"

/-- C5 (code evaluation): the payload sub-lexer's single-quoted *value*
state is wired to the double-quote rule set (`'sqs': dqs(String.Single)` in
`peek/lexers.py`), so in `{'a': 'b'}` the single-quoted value never
terminates at its closing `'`: the quote and even the closing `}` are
emitted as string content and no CurlyRight token appears, whereas the
double-quoted `{"a": "b"}` terminates its string at the closing `"` and
pops back to the enclosing state (the single-quoted *key* state `sqs-key`,
wired to `sqs`, also pops correctly at `'`). -/
theorem C5_single_quoted_value_swallows_close :
    (payloadTokenize 0 "\x7b'a': 'b'\x7d".data).map (fun t => (t.ttype, String.mk t.value)) =
      [(.curlyLeft, "\x7b"), (.stringSymbol, "'"), (.stringSymbol, "a"), (.stringSymbol, "'"),
        (.colon, ":"), (.whitespace, " "), (.stringSingle, "'"), (.stringSingle, "b"),
        (.stringSingle, "'"), (.stringSingle, "\x7d")]
    ∧ (payloadTokenize 0 "\x7b'a': 'b'\x7d".data).all (fun t => ¬ t.ttype = .curlyRight)
    ∧ (payloadTokenize 0 "\x7b\"a\": \"b\"\x7d".data).map (fun t => (t.ttype, String.mk t.value)) =
      [(.curlyLeft, "\x7b"), (.stringSymbol, "\""), (.stringSymbol, "a"), (.stringSymbol, "\""),
        (.colon, ":"), (.whitespace, " "), (.stringDouble, "\""), (.stringDouble, "b"),
        (.stringDouble, "\""), (.curlyRight, "\x7d")]
    ∧ payloadStateRules .psqs = dqs .stringSingle := by
  refine ⟨by decide, by decide, by decide, rfl⟩

/-- C6 (code evaluation): for the lone unrecognized word `foo` with the
cursor at its end, `get_completions` returns Python `None` (modelled as
`none`), not an iterable: the word lexes to Error tokens, `process_tokens`
merges them into one Error token containing the cursor, the completer
dispatches to `_complete_options(tokens[:-1])`, and the backward scan over
the empty remainder falls off the end of the function without a `return`.
This holds for every spec repository and function registry. -/
theorem C6_get_completions_returns_none (specs : Specs) (names : FuncNames) :
    get_completions specs names "foo" 3 = none := rfl

/-- C10: whenever the normalized token stream of the prefix before the
cursor is empty, `get_completions` returns the empty candidate list —
for every spec repository and registry (so the spec repository is not
consulted) and without error (the model is total). -/
theorem C10_empty_token_stream (specs : Specs) (names : FuncNames)
    (docText : String) (cursor : Nat)
    (h : process_tokens (tokenizeChars (docText.data.take cursor)) = []) :
    get_completions specs names docText cursor = some [] := by
  simp only [get_completions, h]
  rfl

/-- Witness for C10: the empty prefix (cursor at offset 0). -/
theorem C10_empty_token_stream_witness :
    get_completions [] [] "" 0 = some [] :=
  C10_empty_token_stream [] [] "" 0 rfl

/-- The spec repository of the specification's examples: one endpoint with
the single path template `/{index}/_search` for method GET and declared
query parameters `q` and `size`. -/
def searchSpecs : Specs :=
  [("search", ⟨[⟨"/\x7bindex\x7d/_search", ["GET"]⟩], ["q", "size"]⟩)]

/-- C2: path-part completion offers, for exactly the spec path templates
whose method set contains the current method, with `len(T) < len(P)` and
`can_match(T, P)`, the candidate `'/'.join(P[len(T):])` at insertion
position 0 — where `T` (`typed_path_segments`) is the typed path with
slash separators discarded and the trailing segment dropped when the
cursor token is a PathPart, and `P` (`split_template`) is the template
split on `/` with empty segments discarded.  With method GET and the
single template `/{index}/_search`, typing `GET /prod/` (cursor at offset
10) yields the candidate `_search`. -/
theorem C2_complete_path_part_characterization :
    (∀ (method : String) (path_tokens : List Tok) (specs : Specs) (comp : Completion),
      comp ∈ complete_path_part method path_tokens specs ↔
        ∃ sp ∈ specs, ∃ ap ∈ sp.2.paths,
          method ∈ ap.methods ∧
          (typed_path_segments path_tokens).length < (split_template ap.path).length ∧
          can_match (typed_path_segments path_tokens) (split_template ap.path) = true ∧
          comp = ⟨String.intercalate "/"
            ((split_template ap.path).drop (typed_path_segments path_tokens).length), 0⟩)
    ∧ get_completions searchSpecs [] "GET /prod/" 10 = some [⟨"_search", 0⟩] := by
  constructor
  · intro method path_tokens specs comp
    simp only [complete_path_part, List.mem_flatMap]
    constructor
    · rintro ⟨sp, hsp, ap, hap, hin⟩
      refine ⟨sp, hsp, ap, hap, ?_⟩
      split at hin
      · rename_i hcont
        split at hin
        · exact absurd hin (by simp)
        · rename_i hge
          split at hin
          · rename_i hcm
            simp only [List.mem_singleton] at hin
            exact ⟨by simpa using hcont, by omega, hcm, hin⟩
          · exact absurd hin (by simp)
      · exact absurd hin (by simp)
    · rintro ⟨sp, hsp, ap, hap, hcont, hlt, hcm, rfl⟩
      refine ⟨sp, hsp, ap, hap, ?_⟩
      rw [if_pos (by simpa using hcont), if_neg (by omega), if_pos hcm]
      simp
  · decide

/-- Witness for C2: the characterization applied at the example's concrete
data (method GET, URL tokens of `/prod/`, the example spec). -/
theorem C2_complete_path_part_characterization_witness :
    Completion.mk "_search" 0 ∈
      complete_path_part "GET" (url_tokenize "/prod/".data) searchSpecs :=
  (C2_complete_path_part_characterization.1 "GET" (url_tokenize "/prod/".data)
    searchSpecs ⟨"_search", 0⟩).mpr
    ⟨("search", ⟨[⟨"/\x7bindex\x7d/_search", ["GET"]⟩], ["q", "size"]⟩), by decide,
      ⟨"/\x7bindex\x7d/_search", ["GET"]⟩, by decide, by decide, by decide, by decide, by decide⟩

theorem setAdd_mem (acc ks : List String) (a : String) :
    a ∈ setAdd acc ks ↔ a ∈ acc ∨ a ∈ ks := by
  induction ks generalizing acc with
  | nil => simp [setAdd]
  | cons k ks ih =>
    have step : setAdd acc (k :: ks) = setAdd (if acc.contains k then acc else acc ++ [k]) ks := by
      simp [setAdd]
    rw [step, ih]
    split
    · rename_i hc
      have hk : k ∈ acc := by simpa using hc
      constructor
      · rintro (h | h)
        · exact Or.inl h
        · exact Or.inr (by simp [h])
      · rintro (h | h)
        · exact Or.inl h
        · rcases List.mem_cons.mp h with rfl | h
          · exact Or.inl hk
          · exact Or.inr h
    · constructor
      · rintro (h | h)
        · rcases List.mem_append.mp h with h | h
          · exact Or.inl h
          · simp only [List.mem_singleton] at h
            exact Or.inr (by simp [h])
        · exact Or.inr (by simp [h])
      · rintro (h | h)
        · exact Or.inl (List.mem_append.mpr (Or.inl h))
        · rcases List.mem_cons.mp h with rfl | h
          · exact Or.inl (by simp)
          · exact Or.inr h

theorem qp_step_mem (method : String) (ts params acc : List String) (ap : ApiPath)
    (a : String) :
    a ∈ qp_step method ts params acc ap ↔
      a ∈ acc ∨
        (ap.methods.contains method = true ∧ params ≠ [] ∧
          ts.length = (split_template ap.path).length ∧
          can_match ts (split_template ap.path) = true ∧ a ∈ params) := by
  simp only [qp_step]
  by_cases h1 : ap.methods.contains method = true
  · rw [if_pos h1]
    by_cases h2 : params = []
    · rw [if_pos h2]
      simp [h2]
    · rw [if_neg h2]
      by_cases h3 : ts.length = (split_template ap.path).length
      · rw [if_neg (not_not_intro h3)]
        by_cases h4 : can_match ts (split_template ap.path) = true
        · rw [if_pos h4, setAdd_mem]
          constructor
          · rintro (h | h)
            · exact Or.inl h
            · exact Or.inr ⟨h1, h2, h3, h4, h⟩
          · rintro (h | ⟨_, _, _, _, h⟩)
            · exact Or.inl h
            · exact Or.inr h
        · rw [if_neg h4]
          constructor
          · exact fun h => Or.inl h
          · rintro (h | ⟨_, _, _, h4', _⟩)
            · exact h
            · exact absurd h4' h4
      · rw [if_pos h3]
        constructor
        · exact fun h => Or.inl h
        · rintro (h | ⟨_, _, h3', _, _⟩)
          · exact h
          · exact absurd h3' h3
  · rw [if_neg h1]
    constructor
    · exact fun h => Or.inl h
    · rintro (h | ⟨h1', _⟩)
      · exact h
      · exact absurd h1' h1

theorem qp_paths_mem (method : String) (ts params acc : List String)
    (paths : List ApiPath) (a : String) :
    a ∈ paths.foldl (qp_step method ts params) acc ↔
      a ∈ acc ∨
        ∃ ap ∈ paths,
          ap.methods.contains method = true ∧ params ≠ [] ∧
          ts.length = (split_template ap.path).length ∧
          can_match ts (split_template ap.path) = true ∧ a ∈ params := by
  induction paths generalizing acc with
  | nil => simp
  | cons ap rest ih =>
    rw [List.foldl_cons, ih, qp_step_mem]
    constructor
    · rintro ((h | h) | ⟨ap', hap', h⟩)
      · exact Or.inl h
      · exact Or.inr ⟨ap, by simp, h⟩
      · exact Or.inr ⟨ap', by simp [hap'], h⟩
    · rintro (h | ⟨ap', hap', h⟩)
      · exact Or.inl (Or.inl h)
      · rcases List.mem_cons.mp hap' with rfl | hap'
        · exact Or.inl (Or.inr h)
        · exact Or.inr ⟨ap', hap', h⟩

theorem qp_specs_mem (method : String) (ts acc : List String) (specs : Specs)
    (a : String) :
    a ∈ specs.foldl (fun acc sp => sp.2.paths.foldl (qp_step method ts sp.2.params) acc) acc ↔
      a ∈ acc ∨
        ∃ sp ∈ specs, ∃ ap ∈ sp.2.paths,
          ap.methods.contains method = true ∧ sp.2.params ≠ [] ∧
          ts.length = (split_template ap.path).length ∧
          can_match ts (split_template ap.path) = true ∧ a ∈ sp.2.params := by
  induction specs generalizing acc with
  | nil => simp
  | cons sp rest ih =>
    rw [List.foldl_cons, ih, qp_paths_mem]
    constructor
    · rintro ((h | ⟨ap, hap, h⟩) | ⟨sp', hsp', h⟩)
      · exact Or.inl h
      · exact Or.inr ⟨sp, by simp, ap, hap, h⟩
      · exact Or.inr ⟨sp', by simp [hsp'], h⟩
    · rintro (h | ⟨sp', hsp', h⟩)
      · exact Or.inl (Or.inl h)
      · rcases List.mem_cons.mp hsp' with rfl | hsp'
        · exact Or.inl (Or.inr h)
        · exact Or.inr ⟨sp', hsp', h⟩

/-- C3: query-parameter-name completion takes as `T` exactly the PathPart
URL-token texts and offers the union of the declared parameter names of
exactly those endpoint templates whose method set contains the current
method, which declare a non-empty parameter set, and whose template `P`
satisfies `len(T) == len(P)` and `can_match(T, P)` (a deduplicated set,
stated by membership; every candidate carries insertion position 0).  With
params `{q, size}` declared for `/{index}/_search`, typing
`GET /prod/_search?` (cursor at offset 18) yields both `q` and `size`. -/
theorem C3_complete_query_param_name_characterization :
    (∀ (method : String) (path_tokens : List Tok) (specs : Specs) (comp : Completion),
      comp ∈ complete_query_param_name method path_tokens specs ↔
        ∃ k, comp = ⟨k, 0⟩ ∧
          ∃ sp ∈ specs, ∃ ap ∈ sp.2.paths,
            method ∈ ap.methods ∧ sp.2.params ≠ [] ∧
            (query_path_segments path_tokens).length = (split_template ap.path).length ∧
            can_match (query_path_segments path_tokens) (split_template ap.path) = true ∧
            k ∈ sp.2.params)
    ∧ get_completions searchSpecs [] "GET /prod/_search?" 18 =
        some [⟨"q", 0⟩, ⟨"size", 0⟩] := by
  constructor
  · intro method path_tokens specs comp
    simp only [complete_query_param_name, List.mem_map]
    constructor
    · rintro ⟨k, hk, rfl⟩
      rw [qp_specs_mem] at hk
      rcases hk with h | ⟨sp, hsp, ap, hap, h1, h2, h3, h4, h5⟩
      · exact absurd h (by simp)
      · exact ⟨k, rfl, sp, hsp, ap, hap, by simpa using h1, h2, h3, h4, h5⟩
    · rintro ⟨k, rfl, sp, hsp, ap, hap, h1, h2, h3, h4, h5⟩
      refine ⟨k, ?_, rfl⟩
      rw [qp_specs_mem]
      exact Or.inr ⟨sp, hsp, ap, hap, by simpa using h1, h2, h3, h4, h5⟩
  · decide

/-- Witness for C3: the characterization applied at the example's concrete
data (method GET, URL tokens of `/prod/_search?`, the example spec). -/
theorem C3_complete_query_param_name_characterization_witness :
    Completion.mk "q" 0 ∈
      complete_query_param_name "GET" (url_tokenize "/prod/_search?".data) searchSpecs :=
  (C3_complete_query_param_name_characterization.1 "GET"
    (url_tokenize "/prod/_search?".data) searchSpecs ⟨"q", 0⟩).mpr
    ⟨"q", rfl, ("search", ⟨[⟨"/\x7bindex\x7d/_search", ["GET"]⟩], ["q", "size"]⟩), by decide,
      ⟨"/\x7bindex\x7d/_search", ["GET"]⟩, by decide, by decide, by decide, by decide,
      by decide, by decide⟩

theorem mergeErrs_join (l : List Tok) : toksJoin (mergeErrs l) = toksJoin l := by
  induction l with
  | nil => rfl
  | cons t rest ih =>
    simp only [mergeErrs]
    split
    · rename_i u us heq
      rw [heq] at ih
      split
      · simp only [toksJoin_cons] at ih ⊢
        rw [← ih, List.append_assoc]
      · simp only [toksJoin_cons] at ih ⊢
        rw [ih]
    · rename_i heq
      rw [heq] at ih
      simp only [toksJoin_cons, toksJoin_nil] at ih ⊢
      rw [← ih, List.append_nil]

theorem mergeErrs_chained {pos : Nat} {l : List Tok} (h : Chained pos l) :
    Chained pos (mergeErrs l) := by
  induction l generalizing pos with
  | nil => trivial
  | cons t rest ih =>
    obtain ⟨hidx, hrest⟩ := h
    have ihh := ih hrest
    simp only [mergeErrs]
    split
    · rename_i u us heq
      rw [heq] at ihh
      obtain ⟨huidx, hus⟩ := ihh
      split
      · refine (chained_cons _ _ _).mpr ⟨hidx, ?_⟩
        have hlen : (Tok.mk t.index TType.error (t.value ++ u.value)).value.length
            = t.value.length + u.value.length := by
          simp
        rw [hlen]
        have : pos + (t.value.length + u.value.length)
            = pos + t.value.length + u.value.length := by omega
        rw [this, ← huidx]
        rw [huidx]
        exact hus
      · exact (chained_cons _ _ _).mpr ⟨hidx, (chained_cons _ _ _).mpr ⟨huidx, hus⟩⟩
    · exact (chained_cons _ _ _).mpr ⟨hidx, trivial⟩

theorem mergeErrs_nonempty {l : List Tok} (h : ∀ t ∈ l, t.value ≠ []) :
    ∀ t ∈ mergeErrs l, t.value ≠ [] := by
  induction l with
  | nil => simp [mergeErrs]
  | cons t rest ih =>
    intro u hu
    simp only [mergeErrs] at hu
    split at hu
    · rename_i v vs heq
      have hrest : ∀ x ∈ mergeErrs rest, x.value ≠ [] :=
        ih (fun x hx => h x (by simp [hx]))
      split at hu
      · rcases List.mem_cons.mp hu with rfl | hu
        · have ht := h t (by simp)
          simp only [ne_eq, List.append_eq_nil]
          intro ⟨h1, _⟩
          exact ht h1
        · exact hrest u (by rw [heq]; simp [hu])
      · rcases List.mem_cons.mp hu with rfl | hu
        · exact h u (by simp)
        · exact hrest u (by rw [heq]; exact hu)
    · rcases List.mem_singleton.mp hu with rfl
      exact h u (by simp)

/-- Every token of the normalized stream of a lexed text is nonempty and
its span lies inside the text. -/
theorem process_tokens_bounds (cs : List Char) :
    ∀ t ∈ process_tokens (tokenizeChars cs),
      t.value ≠ [] ∧ t.index + t.value.length ≤ cs.length := by
  intro t ht
  have hmem : t ∈ mergeErrs (tokenizeChars cs) := (List.mem_filter.mp ht).1
  have hch : Chained 0 (tokenizeChars cs) :=
    mainRun_chained cs.length [.root] 0 cs le_rfl
  have hne := mergeErrs_nonempty (mainRun_nonempty cs.length [.root] 0 cs) t hmem
  have hch' := mergeErrs_chained hch
  have hjoin : toksJoin (mergeErrs (tokenizeChars cs)) = cs := by
    rw [mergeErrs_join]
    exact mainRun_join cs.length [.root] 0 cs le_rfl
  have hb := chained_mem_bounds hch' t hmem
  rw [hjoin] at hb
  exact ⟨hne, by omega⟩

/-- C7: on the normalized token stream of the prefix before the cursor,
the code's cursor-containment test `t.index < cursor ≤ t.index +
len(t.value)` agrees with both-endpoints-inclusive span containment
`[start_offset, start_offset + len(text)]` (every lexed token is nonempty
and ends at or before the cursor, so the left endpoint is strict
automatically); and when no token's span contains the cursor,
`get_completions` returns nothing if the whitespace between the last token
and the cursor contains a newline and otherwise dispatches to option
completion over the existing tokens. -/
theorem C7_cursor_token_selection (specs : Specs) (names : FuncNames)
    (docText : String) (cursor : Nat) (tokens : List Tok)
    (htk : tokens = process_tokens (tokenizeChars (docText.data.take cursor))) :
    (∀ t ∈ tokens,
      ((t.index ≤ cursor ∧ cursor ≤ t.index + t.value.length) ↔
        (t.index < cursor ∧ cursor ≤ t.index + t.value.length)))
    ∧ (∀ lastTok, tokens.getLast? = some lastTok →
        findCursorTok cursor 0 tokens = none →
        get_completions specs names docText cursor =
          if ((docText.data.take cursor).drop
              (lastTok.index + lastTok.value.length)).contains '\n'
          then some []
          else (complete_options tokens names).map wrapWords) := by
  constructor
  · intro t ht
    rw [htk] at ht
    have hb := process_tokens_bounds (docText.data.take cursor) t ht
    have hlen : (docText.data.take cursor).length ≤ cursor := by
      rw [List.length_take]
      omega
    have hv : 1 ≤ t.value.length := List.length_pos.mpr hb.1
    constructor
    · rintro ⟨h1, h2⟩
      refine ⟨?_, h2⟩
      have := hb.2
      omega
    · rintro ⟨h1, h2⟩
      exact ⟨by omega, h2⟩
  · intro lastTok hlast hfind
    rw [htk] at hlast hfind
    simp only [get_completions, hlast, hfind, htk]

/-- Witness for C7: `GET a ` with the cursor in the trailing space (offset
6): no token contains the cursor, the gap has no newline, and option
completion over the existing tokens offers the ES call options. -/
theorem C7_cursor_token_selection_witness :
    get_completions searchSpecs [] "GET a " 6 = some [⟨"conn=", 0⟩, ⟨"runas=", 0⟩] := by
  have h := (C7_cursor_token_selection searchSpecs [] "GET a " 6
    (process_tokens (tokenizeChars ("GET a ".data.take 6))) rfl).2
    ⟨4, .literal, ['a']⟩ (by decide) (by decide)
  rw [h]
  decide

theorem optionScan_eq_find (l : List Tok) (names : FuncNames) :
    optionScan l names =
      match l.find? (fun t => decide (t.ttype = .httpMethod ∨ t.ttype = .funcName ∨
          t.ttype = .blankLine)) with
      | some t =>
        if t.ttype = .httpMethod then some (["conn", "runas"].map (fun w => w ++ "="))
        else if t.ttype = .funcName then
          match lookupDict names (String.mk t.value) with
          | none => some []
          | some optNames =>
            match optNames with
            | none => some []
            | some os => if os = [] then some [] else some (os.map (fun n => n ++ "="))
        else some []
      | none => none := by
  induction l with
  | nil => rfl
  | cons t rest ih =>
    by_cases h1 : t.ttype = .httpMethod
    · rw [List.find?_cons_of_pos _ (by simp [h1])]
      simp only [optionScan, if_pos h1]
    · by_cases h2 : t.ttype = .funcName
      · rw [List.find?_cons_of_pos _ (by simp [h2])]
        simp only [optionScan, if_neg h1, if_pos h2]
      · by_cases h3 : t.ttype = .blankLine
        · rw [List.find?_cons_of_pos _ (by simp [h3])]
          simp only [optionScan, if_neg h1, if_neg h2, if_pos h3]
        · rw [List.find?_cons_of_neg _ (by simp [h1, h2, h3])]
          simp only [optionScan, if_neg h1, if_neg h2, if_neg h3]
          exact ih

/-- C8: option completion yields nothing when the token list ends in an
assignment marker (value position); otherwise the backward scan finds the
nearest HttpMethod, FuncName or BlankLine token: HttpMethod yields exactly
`conn=` and `runas=`, FuncName yields the function's declared option names
suffixed with `=` (or nothing when the function is unknown or declares
none), BlankLine yields nothing (and if the scan finds none of these the
Python function returns `None` — see C6).  The caller drops the
partially-typed trailing token before the scan (`tokens[:-1]` in
`get_completions`).  Examples: the token list of `POST myfunc ` with
`myfunc` declaring options `[a, b]` yields `a=` and `b=`; a token list
ending immediately after `a=` yields no candidates. -/
theorem C8_complete_options_characterization :
    (∀ (tokens : List Tok) (names : FuncNames) (t : Tok),
      tokens.getLast? = some t → t.ttype = .assign →
      complete_options tokens names = some [])
    ∧ (∀ (tokens : List Tok) (names : FuncNames),
        (∀ t, tokens.getLast? = some t → ¬ t.ttype = .assign) →
        complete_options tokens names =
          match tokens.reverse.find? (fun t => decide (t.ttype = .httpMethod ∨
              t.ttype = .funcName ∨ t.ttype = .blankLine)) with
          | some t =>
            if t.ttype = .httpMethod then some ["conn=", "runas="]
            else if t.ttype = .funcName then
              match lookupDict names (String.mk t.value) with
              | none => some []
              | some optNames =>
                match optNames with
                | none => some []
                | some os => if os = [] then some [] else some (os.map (fun n => n ++ "="))
            else some []
          | none => none)
    ∧ complete_options [⟨0, .httpMethod, "POST".data⟩, ⟨5, .funcName, "myfunc".data⟩]
        [("myfunc", some ["a", "b"])] = some ["a=", "b="]
    ∧ complete_options [⟨0, .httpMethod, "POST".data⟩, ⟨5, .funcName, "myfunc".data⟩,
        ⟨12, .keyName, "a".data⟩, ⟨13, .assign, "=".data⟩] [("myfunc", some ["a", "b"])]
        = some [] := by
  refine ⟨?_, ?_, by decide, by decide⟩
  · intro tokens names t hlast hassign
    simp only [complete_options, hlast, if_pos hassign]
  · intro tokens names hne
    match hl : tokens.getLast? with
    | none =>
      have : tokens = [] := List.getLast?_eq_none_iff.mp hl
      subst this
      rfl
    | some t =>
      simp only [complete_options, hl, if_neg (hne t hl)]
      exact optionScan_eq_find tokens.reverse names

/-- Witness for C8: the assign-marker case applied at a concrete token
list. -/
theorem C8_complete_options_characterization_witness :
    complete_options [⟨0, .keyName, "a".data⟩, ⟨1, .assign, "=".data⟩] [] = some [] :=
  C8_complete_options_characterization.1
    [⟨0, .keyName, "a".data⟩, ⟨1, .assign, "=".data⟩] [] ⟨1, .assign, "=".data⟩
    (by decide) rfl


theorem lookupDict_append {α : Type} (a b : List (String × α)) (key : String) :
    lookupDict (a ++ b) key =
      match lookupDict a key with
      | some v => some v
      | none => lookupDict b key := by
  induction a with
  | nil => rfl
  | cons p rest ih =>
    obtain ⟨pk, pv⟩ := p
    simp only [List.cons_append, lookupDict]
    split
    · rfl
    · exact ih

theorem lookupDict_none_of_absent {α : Type} (m : List (String × α)) (k : String)
    (h : ∀ p ∈ m, ¬ p.1 = k) : lookupDict m k = none := by
  induction m with
  | nil => rfl
  | cons p rest ih =>
    obtain ⟨pk, pv⟩ := p
    simp only [lookupDict]
    rw [if_neg (h (pk, pv) (by simp))]
    exact ih (fun q hq => h q (by simp [hq]))

theorem lookupDict_map_replace_eq {α : Type} (m : List (String × α)) (k : String)
    (v : α) (hin : ∃ p ∈ m, p.1 = k) :
    lookupDict (m.map (fun p => if p.1 = k then (p.1, v) else p)) k = some v := by
  induction m with
  | nil =>
    obtain ⟨p, hp, _⟩ := hin
    simp at hp
  | cons q rest ih =>
    obtain ⟨qk, qv⟩ := q
    by_cases hq : qk = k
    · have hhead : ((qk, qv) :: rest).map (fun p => if p.1 = k then (p.1, v) else p)
          = (qk, v) :: rest.map (fun p => if p.1 = k then (p.1, v) else p) := by
        simp [hq]
      rw [hhead]
      simp only [lookupDict]
      rw [if_pos hq]
    · have hhead : ((qk, qv) :: rest).map (fun p => if p.1 = k then (p.1, v) else p)
          = (qk, qv) :: rest.map (fun p => if p.1 = k then (p.1, v) else p) := by
        simp [hq]
      rw [hhead]
      simp only [lookupDict]
      rw [if_neg hq]
      refine ih ?_
      obtain ⟨p, hp, hpk⟩ := hin
      rcases List.mem_cons.mp hp with rfl | hp
      · exact absurd hpk hq
      · exact ⟨p, hp, hpk⟩

theorem lookupDict_map_replace_ne {α : Type} (m : List (String × α)) (k key : String)
    (v : α) (hne : ¬ k = key) :
    lookupDict (m.map (fun p => if p.1 = k then (p.1, v) else p)) key =
      lookupDict m key := by
  induction m with
  | nil => rfl
  | cons q rest ih =>
    obtain ⟨qk, qv⟩ := q
    by_cases hq : qk = k
    · have hhead : ((qk, qv) :: rest).map (fun p => if p.1 = k then (p.1, v) else p)
          = (qk, v) :: rest.map (fun p => if p.1 = k then (p.1, v) else p) := by
        simp [hq]
      rw [hhead]
      simp only [lookupDict]
      rw [if_neg (by rw [hq]; exact hne), if_neg (by rw [hq]; exact hne)]
      exact ih
    · have hhead : ((qk, qv) :: rest).map (fun p => if p.1 = k then (p.1, v) else p)
          = (qk, qv) :: rest.map (fun p => if p.1 = k then (p.1, v) else p) := by
        simp [hq]
      rw [hhead]
      simp only [lookupDict]
      split
      · rfl
      · exact ih

theorem dictInsert_lookup {α : Type} (m : List (String × α)) (k : String) (v : α)
    (key : String) :
    lookupDict (dictInsert m (k, v)) key =
      if k = key then some v else lookupDict m key := by
  simp only [dictInsert]
  split
  · rename_i hany
    have hin : ∃ p ∈ m, p.1 = k := by simpa using hany
    by_cases hk : k = key
    · subst hk
      rw [if_pos rfl]
      exact lookupDict_map_replace_eq m k v hin
    · rw [if_neg hk]
      exact lookupDict_map_replace_ne m k key v hk
  · rename_i hany
    have habs : ∀ p ∈ m, ¬ p.1 = k := by
      intro p hp hc
      simp only [List.any_eq_true, decide_eq_true_eq] at hany
      exact hany ⟨p, hp, hc⟩
    rw [lookupDict_append]
    by_cases hk : k = key
    · subst hk
      rw [lookupDict_none_of_absent m k habs, if_pos rfl]
      simp [lookupDict]
    · rw [if_neg hk]
      cases h : lookupDict m key
      · simp only [lookupDict]
        rw [if_neg hk]
      · rfl

theorem dictUpdate_lookup {α : Type} (m new : List (String × α)) (key : String) :
    lookupDict (dictUpdate m new) key =
      match lookupDict new.reverse key with
      | some v => some v
      | none => lookupDict m key := by
  induction new generalizing m with
  | nil => rfl
  | cons kv rest ih =>
    obtain ⟨k, v⟩ := kv
    have hstep : dictUpdate m ((k, v) :: rest) = dictUpdate (dictInsert m (k, v)) rest := rfl
    rw [hstep, ih, show ((k, v) :: rest).reverse = rest.reverse ++ [(k, v)] from by simp,
      lookupDict_append]
    cases h1 : lookupDict rest.reverse key
    · rw [dictInsert_lookup]
      have h2 : lookupDict [(k, v)] key = if k = key then some v else none := by
        simp only [lookupDict]
      rw [h2]
      by_cases hk : k = key
      · rw [if_pos hk, if_pos hk]
      · rw [if_neg hk, if_neg hk]
    · rfl

theorem load_fold_lookup {α : Type} (files : List (String × List (String × α)))
    (acc : List (String × α)) (key : String) :
    lookupDict (files.foldl
        (fun specs f => if f.1 = "_common.json" then specs else dictUpdate specs f.2)
        acc) key =
      match lookupDict
          ((((files.filter (fun f => ¬ f.1 = "_common.json")).map Prod.snd).flatten).reverse)
          key with
      | some v => some v
      | none => lookupDict acc key := by
  induction files generalizing acc with
  | nil => rfl
  | cons f rest ih =>
    rw [List.foldl_cons]
    by_cases hc : f.1 = "_common.json"
    · rw [if_pos hc, List.filter_cons_of_neg (by simp [hc])]
      exact ih acc
    · rw [if_neg hc, List.filter_cons_of_pos (by simp [hc])]
      rw [ih (dictUpdate acc f.2), dictUpdate_lookup]
      simp only [List.map_cons, List.flatten_cons, List.reverse_append]
      rw [lookupDict_append]
      cases h1 : lookupDict
          ((((rest.filter (fun f => ¬ f.1 = "_common.json")).map Prod.snd).flatten).reverse)
          key
      · cases h2 : lookupDict f.2.reverse key <;> rfl
      · rfl

/-- C9: loading the REST API spec merges the per-file endpoint mappings of
every `.json` file in the directory listing except `_common.json` into one
flat mapping in which, for any endpoint name, the binding that wins is the
last one over the listing order (later files overwrite earlier ones; the
right-hand side looks the key up in the reversed concatenation of the kept
files' bindings); and when the spec directory does not exist, `load`
returns the empty mapping with the warning flag set.  The model is a total
function: no input raises. -/
theorem C9_load_rest_api_spec_merge :
    (∀ (α : Type), @load_rest_api_spec α none = ([], true))
    ∧ (∀ (α : Type) (files : List (String × List (String × α))) (key : String),
        lookupDict (load_rest_api_spec (some files)).1 key =
          lookupDict (((((files.filter (fun f => str_endswith f.1 ".json")).filter
              (fun f => ¬ f.1 = "_common.json")).map Prod.snd).flatten).reverse) key) := by
  refine ⟨fun α => rfl, ?_⟩
  intro α files key
  simp only [load_rest_api_spec]
  rw [load_fold_lookup]
  cases h : lookupDict
      (((((files.filter (fun f => str_endswith f.1 ".json")).filter
          (fun f => ¬ f.1 = "_common.json")).map Prod.snd).flatten).reverse) key
  · rfl
  · rfl

/-- Witness for C9: two files binding the same endpoint name, a skipped
common file and a skipped non-JSON file; the later file wins. -/
theorem C9_load_rest_api_spec_merge_witness :
    lookupDict (load_rest_api_spec (some
      [("a.json", [("x", (1 : Nat)), ("y", 2)]), ("_common.json", [("x", 99)]),
        ("b.json", [("x", 3)]), ("c.txt", [("z", 7)])])).1 "x" = some 3 := by
  have h := C9_load_rest_api_spec_merge.2 Nat
    [("a.json", [("x", (1 : Nat)), ("y", 2)]), ("_common.json", [("x", 99)]),
      ("b.json", [("x", 3)]), ("c.txt", [("z", 7)])] "x"
  rw [h]
  decide
